import Mathlib

/-!
# go-mesh: host cache, handshake header parser, message framing

A shallow embedding of the Go sources

* `gomesh/libs/hostcache.go`  (the persisted set of peer addresses),
* `gomesh/utils/utils.go`     (`ParseHeaders`, `CreateIfNotExist`, `GetNetIP`),
* `gomesh/main.go`            (`Servent`: Gnutella 0.6 handshake, bootstrap, PING framing),
* `gomesh/gomesh/main.go`     (`Peer`: the Gnutella2 variant with the hub gate),

followed by theorems about them.

Conventions of the embedding.

* A Go `string` is the list of its characters (`Str`); a `[]byte` is a list of
  naturals, a byte being a natural below 256.  A slice has capacity equal to
  its length.
* A Go run-time panic (index out of range) is the result `none`.
* A Go `error` value is `Option GoError`, `none` being `nil`.
* The iteration order of a Go map is unspecified.  A `range` over the map is
  modelled by a function `ρ` that returns the keys in some order; theorems hold
  for every `ρ` that permutes its argument.
* Output to standard output (`fmt.Println`) is not part of the model.
-/

namespace GoMesh

/-! ## Strings -/

/-- A Go string, as the list of its characters. -/
abbrev Str := List Char

/-- The function `unicode.IsSpace`: the characters `strings.TrimSpace` removes. -/
def IsSpace (c : Char) : Bool :=
  let n := c.toNat
  (0x09 ≤ n && n ≤ 0x0d) || n == 0x20 || n == 0x85 || n == 0xa0 || n == 0x1680 ||
  (0x2000 ≤ n && n ≤ 0x200a) || n == 0x2028 || n == 0x2029 || n == 0x202f ||
  n == 0x205f || n == 0x3000

/-- The function `strings.TrimSpace`: leading and trailing white space removed. -/
def TrimSpace (s : Str) : Str :=
  (((s.dropWhile IsSpace).reverse).dropWhile IsSpace).reverse

/-- The function `strings.Contains s sub`: `sub` occurs at some position of `s`. -/
def Contains : Str → Str → Bool
  | [], sub => sub.isPrefixOf []
  | c :: s, sub => sub.isPrefixOf (c :: s) || Contains s sub

/-- Scanning loop of `strings.Split` for a non-empty separator: `cur` holds the
current fragment reversed, `skip` the number of characters of a separator
occurrence still to be passed over. -/
def splitAux (sep : Str) : Str → Str → Nat → List Str
  | [], cur, _ => [cur.reverse]
  | _ :: s, cur, skip + 1 => splitAux sep s cur skip
  | c :: s, cur, 0 =>
    if sep.isPrefixOf (c :: s) then cur.reverse :: splitAux sep s [] (sep.length - 1)
    else splitAux sep s (c :: cur) 0

/-- The function `strings.Split s sep` for a non-empty separator: the fragments
between the successive, non-overlapping occurrences of `sep`, leftmost first. -/
def Split (s sep : Str) : List Str := splitAux sep s [] 0

/-- Number of bytes of a string (its UTF-8 encoding), Go's `len`. -/
def byteLen (s : Str) : Nat := (s.map Char.utf8Size).sum

/-- Fragments joined with a separator, as repeated `+=` builds them. -/
def joinWith (sep : Str) : List Str → Str
  | [] => []
  | [v] => v
  | v :: w :: vs => v ++ sep ++ joinWith sep (w :: vs)

/-! ## Errors -/

/-- A non-nil Go `error`: its dynamic type as `%T` prints it and its message. -/
structure GoError where
  typ : Str
  msg : Str
deriving DecidableEq, Repr

/-- The function `errors.New`. -/
def errors_New (msg : Str) : GoError := ⟨"*errors.errorString".toList, msg⟩

/-- The function `fmt.Sprintf` applied to a format without verbs: the operands,
each rendered `type=value`, follow the format inside `%!(EXTRA ...)`. -/
def SprintfExtra (format : Str) (operands : List Str) : Str :=
  format ++ "%!(EXTRA ".toList ++ joinWith ", ".toList operands ++ ")".toList

/-- Rendering of a string operand in `%!(EXTRA ...)`. -/
def extraString (s : Str) : Str := "string=".toList ++ s

/-- Rendering of an error operand in `%!(EXTRA ...)`. -/
def extraError : Option GoError → Str
  | none => "<nil>".toList
  | some e => e.typ ++ "=".toList ++ e.msg

/-! ## The file `hostcache.txt` -/

/-- The constant `HOSTCACHE`. -/
def HOSTCACHE : Str := "hostcache.txt".toList

/-- State of the file system as far as the program touches it: the content of
`hostcache.txt` (`none` when the file does not exist) and the outcome the
operating system gives to `os.Create` and to `os.OpenFile` for writing
(`none`: success). -/
structure Disk where
  file : Option Str
  createErr : Option GoError
  openErr : Option GoError
deriving DecidableEq

/-- The function `utils.CreateIfNotExist` on `hostcache.txt`: `os.Stat` reports
a missing file exactly when the file is absent; the file is then created
empty, or the failure of `os.Create` is returned. -/
def CreateIfNotExist (d : Disk) : Disk × Option GoError :=
  match d.file with
  | none =>
    match d.createErr with
    | some err =>
      (d, some (errors_New (SprintfExtra "Unable to create file ".toList
        [extraString HOSTCACHE, extraString ": ".toList, extraError (some err)])))
    | none => ({ d with file := some [] }, none)
  | some _ => (d, none)

/-! ## `libs.HostCache` -/

/-- The type `HostCache`: `set map[string]bool`.  Only the value `true` is ever
stored, and only the presence of a key is ever tested, so the map is given by
the list of its keys (each key once). -/
structure HostCache where
  set : List Str
deriving DecidableEq

/-- Order in which a `range` over a map with the given keys visits them. -/
abbrev RangeOrder := List Str → List Str

/-- A range visits every key exactly once. -/
def RangeOrder.Valid (ρ : RangeOrder) : Prop := ∀ l, (ρ l).Perm l

namespace HostCache

/-- The value `HostCache{set: make(map[string]bool)}`. -/
def empty : HostCache := ⟨[]⟩

/-- The method `HostCache.Add`: the updated set and the returned flag. -/
def Add (hc : HostCache) (addr : Str) : HostCache × Bool :=
  if addr ∈ hc.set then (hc, false) else (⟨hc.set ++ [addr]⟩, true)

/-- The method `HostCache.Items`: the keys in the order the range visits them. -/
def Items (hc : HostCache) (ρ : RangeOrder) : List Str := ρ hc.set

/-- The text `Save` writes into the truncated file: every item followed by a
line feed. -/
def writeItems : List Str → Str
  | [] => []
  | addr :: rest => (addr ++ ['\n']) ++ writeItems rest

/-- The method `HostCache.Save`: the file system afterwards.  Nothing is
written when the file can neither be found nor created, or cannot be opened
for writing. -/
def Save (hc : HostCache) (ρ : RangeOrder) (d : Disk) : Disk :=
  match CreateIfNotExist d with
  | (d1, some _) => d1
  | (d1, none) =>
    match d1.openErr with
    | some _ => d1
    | none => { d1 with file := some (writeItems (hc.Items ρ)) }

/-- The method `HostCache.Delete`: the key is removed from the map, then the
set is saved. -/
def Delete (hc : HostCache) (addr : Str) (ρ : RangeOrder) (d : Disk) : HostCache × Disk :=
  let hc1 : HostCache := ⟨hc.set.filter (fun a => a ≠ addr)⟩
  (hc1, hc1.Save ρ d)

end HostCache

/-! ## Loading the cache: `bufio.Reader.ReadLine` and `NewHostCache` -/

/-- Size of the buffer of `bufio.NewReader`. -/
def defaultBufSize : Nat := 4096

/-- What one call of `ReadLine` returns, with the input left unread. -/
structure ReadLineResult where
  line : Str
  isPrefix : Bool
  err : Bool
  rest : Str
deriving DecidableEq

/-- The characters before the first line feed, whether a line feed was found,
and the input after it. -/
def cutLine : Str → Str × Bool × Str
  | [] => ([], false, [])
  | c :: s =>
    if c = '\n' then ([], true, s)
    else match cutLine s with
      | (l, found, r) => (c :: l, found, r)

/-- A line without its final carriage return, when it has one. -/
def dropCR (l : Str) : Str :=
  match l.reverse with
  | '\r' :: t => t.reverse
  | _ => l

/-- The longest prefix of at most `n` bytes, and the input after it. -/
def takeBytes : Nat → Str → Str × Str
  | _, [] => ([], [])
  | n, c :: s =>
    if c.utf8Size ≤ n then
      match takeBytes (n - c.utf8Size) s with
      | (l, r) => (c :: l, r)
    else ([], c :: s)

/-- The method `bufio.Reader.ReadLine` on a reader with the default buffer over
the given unread input.  A line that ends in a line feed within the buffer is
returned without its end-of-line marker (`\n` or `\r\n`); input that fills the
buffer before a line feed is returned with `isPrefix` set; the rest of the
input at end of file is returned as it is; at end of file with nothing left
the error is `io.EOF`. -/
def ReadLine (input : Str) : ReadLineResult :=
  match cutLine input with
  | (l, true, r) =>
    if byteLen l + 1 ≤ defaultBufSize then ⟨dropCR l, false, false, r⟩
    else ⟨(takeBytes defaultBufSize input).1, true, false, (takeBytes defaultBufSize input).2⟩
  | (l, false, _) =>
    if defaultBufSize ≤ byteLen l then
      ⟨(takeBytes defaultBufSize input).1, true, false, (takeBytes defaultBufSize input).2⟩
    else if l = [] then ⟨[], false, true, []⟩
    else ⟨l, false, false, []⟩

/-- The loop of `NewHostCache`: `for err == nil && !isPrefix` adds the line
read and reads the next one.  `fuel` bounds the number of iterations. -/
def loadLoop : Nat → ReadLineResult → HostCache → HostCache
  | 0, _, hc => hc
  | fuel + 1, r, hc =>
    if r.err = false ∧ r.isPrefix = false then
      loadLoop fuel (ReadLine r.rest) (hc.Add r.line).1
    else hc

/-- The set `NewHostCache` builds from the content of the file: every
iteration that adds a line consumes at least one character, so the length of
the content plus one is enough fuel. -/
def loadContent (content : Str) : HostCache :=
  loadLoop (content.length + 1) (ReadLine content) HostCache.empty

/-- The function `NewHostCache`: fails when the file cannot be opened. -/
def NewHostCache (d : Disk) (openErr : GoError) : Option HostCache × Option GoError :=
  match d.file with
  | none =>
    (none, some (errors_New (SprintfExtra "Error loading hostcache: ".toList
      [extraError (some openErr)])))
  | some content => (some (loadContent content), none)

/-! ## `utils.ParseHeaders` -/

/-- A Go `map[string]string`, by what a lookup returns. -/
abbrev HeaderMap := Str → Option Str

/-- The assignment `m[k] = v`. -/
def HeaderMap.set (m : HeaderMap) (k v : Str) : HeaderMap :=
  fun x => if x = k then some v else m x

/-- The expression `m[k]`: the empty string for a missing key. -/
def HeaderMap.get (m : HeaderMap) (k : Str) : Str := (m k).getD []

/-- The variables of the loop of `ParseHeaders`. -/
structure ParseState where
  h_map : HeaderMap
  i_key : Str

/-- One iteration of the loop of `ParseHeaders` on the line `h`.  The index
expressions `h[0]` and `h_frag[1]` panic on an empty line and on a line with a
colon but no `": "`. -/
def ParseHeaders.step (st : ParseState) (h : Str) : Option ParseState :=
  match h with
  | [] => none
  | c :: _ =>
    if c = ' ' ∧ st.i_key.length > 0 then
      match st.h_map st.i_key with
      | some v => some { st with h_map := st.h_map.set st.i_key (v ++ (" ".toList ++ TrimSpace h)) }
      | none => some st
    else if Contains h ":".toList then
      match Split h ": ".toList with
      | h_key :: h_val :: _ =>
        match st.h_map h_key with
        | some v => some ⟨st.h_map.set h_key (v ++ (",".toList ++ h_val)), h_key⟩
        | none => some ⟨st.h_map.set h_key h_val, h_key⟩
      | _ => none
    else some { st with h_map := st.h_map.set "Title".toList h }

/-- The loop `for _, h := range h_list`. -/
def ParseHeaders.loop : List Str → ParseState → Option ParseState
  | [], st => some st
  | h :: rest, st =>
    match ParseHeaders.step st h with
    | none => none
    | some st1 => ParseHeaders.loop rest st1

/-- The lines `ParseHeaders` iterates over: `h_list`. -/
def headerLines (h : Str) : List Str := Split (TrimSpace h) "\r\n".toList

/-- The function `utils.ParseHeaders`. -/
def ParseHeaders (h : Str) : Option HeaderMap :=
  (ParseHeaders.loop (headerLines h) ⟨fun _ => none, []⟩).map (fun st => st.h_map)

/-- The function `utils.GetNetIP`: its first statement returns a constant. -/
def GetNetIP : Str × Option GoError := ("112.210.47.38".toList, none)

/-! ## Connections -/

/-- What is handed to `conn.Write`: the bytes of a text, or raw bytes. -/
inductive Payload where
  | text (s : Str)
  | bytes (b : List Nat)
deriving DecidableEq

/-- A `net.Conn` as the program sees it.  `reads` lists what the coming calls
of `Read` return (the data read and the error); a call past the end of the
list returns no data and `io.EOF`.  `writes` lists the outcome of the coming
calls of `Write` (`none`: success); a call past the end succeeds.  `written`
records the payloads written so far.  A peer that keeps sending for ever is
outside the model. -/
structure Conn where
  remoteAddr : Str
  reads : List (Str × Option GoError)
  writes : List (Option GoError)
  written : List Payload
  closed : Bool
deriving DecidableEq

/-- The error `io.EOF`. -/
def io_EOF : GoError := errors_New "EOF".toList

/-- The method `conn.Write`. -/
def Conn.Write (c : Conn) (p : Payload) : Conn × Option GoError :=
  match c.writes with
  | [] => ({ c with written := c.written ++ [p] }, none)
  | none :: ws => ({ c with writes := ws, written := c.written ++ [p] }, none)
  | some err :: ws => ({ c with writes := ws }, some err)

/-- The method `conn.Close`. -/
def Conn.Close (c : Conn) : Conn := { c with closed := true }

/-- The loop `for { n, err := conn.Read(b); if err != nil || n == 0 { break };
buf.Write(b[:n]) }`: the bytes accumulated and the reads left, plus the error
of the read that ended the loop. -/
def readLoop : List (Str × Option GoError) → Str × List (Str × Option GoError) × Option GoError
  | [] => ([], [], some io_EOF)
  | (chunk, err) :: rest =>
    if err ≠ none ∨ chunk.length = 0 then ([], rest, err)
    else match readLoop rest with
      | (buf, left, e) => (chunk ++ buf, left, e)

/-! ## `gomesh/main.go`: the Gnutella 0.6 servent -/

/-- The constant `TTL`. -/
def TTL : Nat := 5

/-- The constant `PORT`. -/
def PORT : Nat := 6346

/-- The map `PAYLOAD`; a missing key reads as zero. -/
def PAYLOAD (k : Str) : Nat :=
  if k = "PING".toList then 0x00
  else if k = "PONG".toList then 0x01
  else if k = "BYE".toList then 0x02
  else if k = "PUSH".toList then 0x40
  else if k = "QUERY".toList then 0x80
  else if k = "QUERYHIT".toList then 0x81
  else 0

/-- The conversion `byte(x)`. -/
def byte (x : Nat) : Nat := x % 256

/-- The slice expression `b[lo:hi]`, which panics unless `lo ≤ hi ≤ cap(b)`. -/
def slice (b : List Nat) (lo hi : Nat) : Option (List Nat) :=
  if lo ≤ hi ∧ hi ≤ b.length then some ((b.drop lo).take (hi - lo)) else none

/-- The function `uuid.Parse` of the library `gouuid`: a copy of the sixteen
bytes, or `nil` with an error for a slice of another length. -/
def uuid_Parse (b : List Nat) : Option (List Nat) :=
  if b.length = 16 then some b else none

/-- The function `binary.LittleEndian.PutUint16` on a slice. -/
def PutUint16 (b : List Nat) (v : Nat) : Option (List Nat) :=
  match b with
  | _ :: _ :: rest => some (byte v :: byte (v / 256) :: rest)
  | _ => none

/-- The function `binary.LittleEndian.Uint16`: `uint16(b[0]) | uint16(b[1])<<8`. -/
def Uint16 (b : List Nat) : Option Nat :=
  match b with
  | b0 :: b1 :: _ => some (b0 + 256 * b1)
  | _ => none

namespace Servent

/-- The constant `USER_AGENT` of `gomesh/main.go`. -/
def USER_AGENT : Str := "GoMesh/1.0".toList

/-- The type `Message`; `GUID` is `none` for a nil pointer. -/
structure Message where
  GUID : Option (List Nat)
  p_type : Nat
  ttl : Nat
  hops : Nat
  p_len : Nat
  payload : List Nat
deriving DecidableEq

end Servent

/-- The type `Servent`; `GUID` holds the sixteen bytes of the identifier,
`Peer` is `none` for a nil connection. -/
structure Servent where
  GUID : List Nat
  Port : Nat
  Hostcache : HostCache
  Peer : Option Conn

namespace Servent

/-- The loop of `CachePeers`: the part of every entry before its first space is
added to the cache. -/
def CachePeers.loop : List Str → HostCache → Option HostCache
  | [], hc => some hc
  | addr :: rest, hc =>
    match Split addr " ".toList with
    | [] => none
    | a :: _ => CachePeers.loop rest (hc.Add a).1

/-- The method `Servent.CachePeers`. -/
def CachePeers (s : Servent) (t_peers : Str) (ρ : RangeOrder) (d : Disk) :
    Option (Servent × Disk) :=
  match CachePeers.loop (Split t_peers ",".toList) s.Hostcache with
  | none => none
  | some hc => some ({ s with Hostcache := hc }, hc.Save ρ d)

/-- The request `Handshake` sends. -/
def connectRequest : Str :=
  "GNUTELLA CONNECT/0.6\r\n".toList ++ "User-Agent: ".toList ++ USER_AGENT ++ "\r\n".toList ++
  "X-Ultrapeer: False\r\n".toList ++ "X-Query-Routing: 0.1\r\n".toList ++
  "Pong-Caching: 0.1\r\n".toList ++ "GGEP: 0.5\r\n\r\n".toList

/-- The acknowledgment `Handshake` sends. -/
def acceptPayload : Str := "GNUTELLA/0.6 200 OK\r\n\r\n".toList

/-- What a call leaves behind: the servent, the connection, the file system and
the error returned. -/
structure Outcome where
  servent : Servent
  conn : Conn
  disk : Disk
  err : Option GoError

/-- The statement `if v, ok := h[key]; ok { s.CachePeers(v) }`. -/
def cacheHeader (h : HeaderMap) (key : Str) (s : Servent) (ρ : RangeOrder) (d : Disk) :
    Option (Servent × Disk) :=
  match h key with
  | some v => s.CachePeers v ρ d
  | none => some (s, d)

/-- The method `Servent.Handshake`. -/
def Handshake (s : Servent) (conn : Conn) (ρ : RangeOrder) (d : Disk) : Option Outcome :=
  match conn.Write (.text connectRequest) with
  | (c1, some err) => some ⟨s, c1, d, some err⟩
  | (c1, none) =>
    match readLoop c1.reads with
    | (buf, left, _) =>
      let c2 : Conn := { c1 with reads := left }
      if buf.length = 0 then
        some ⟨s, c2, d, some (errors_New "Unable to read GNUTELLA CONNECT response".toList)⟩
      else
        match ParseHeaders buf with
        | none => none
        | some h =>
          match cacheHeader h "X-Try-Ultrapeers".toList s ρ d with
          | none => none
          | some (s1, d1) =>
            match cacheHeader h "X-Try".toList s1 ρ d1 with
            | none => none
            | some (s2, d2) =>
              if ¬ Contains (h.get "Title".toList) "200".toList = true ∨
                  ¬ Contains (h.get "Title".toList) "GNUTELLA/0.6".toList = true then
                some ⟨s2, c2, d2, some (errors_New (h.get "Title".toList))⟩
              else
                match c2.Write (.text acceptPayload) with
                | (c3, some err) => some ⟨s2, c3, d2, some err⟩
                | (c3, none) => some ⟨s2, c3, d2, none⟩

/-- What `Bootstrap` leaves behind, with the addresses dialed and the
connections closed, in order. -/
structure BootOutcome where
  servent : Servent
  disk : Disk
  dialed : List Str
  closed : List Conn
  err : Option GoError

/-- The loop of `Bootstrap` over the snapshot `Items()`; `dial` gives the result
of `net.DialTimeout` for an address. -/
def Bootstrap.loop (dial : Str → Except GoError Conn) (ρ : RangeOrder) :
    List Str → Servent → Disk → List Str → List Conn →
      Option (Servent × Disk × List Str × List Conn)
  | [], s, d, dialed, closed => some (s, d, dialed, closed)
  | addr :: rest, s, d, dialed, closed =>
    match dial addr with
    | .error _ =>
      match s.Hostcache.Delete addr ρ d with
      | (hc, d1) => Bootstrap.loop dial ρ rest { s with Hostcache := hc } d1 (dialed ++ [addr]) closed
    | .ok conn =>
      match s.Handshake conn ρ d with
      | none => none
      | some ⟨s1, c1, d1, some _⟩ =>
        match s1.Hostcache.Delete addr ρ d1 with
        | (hc, d2) =>
          Bootstrap.loop dial ρ rest { s1 with Hostcache := hc } d2 (dialed ++ [addr])
            (closed ++ [c1.Close])
      | some ⟨s1, c1, d1, none⟩ => some ({ s1 with Peer := some c1 }, d1, dialed ++ [addr], closed)

/-- The method `Servent.Bootstrap`. -/
def Bootstrap (s : Servent) (dial : Str → Except GoError Conn) (ρ : RangeOrder) (d : Disk) :
    Option BootOutcome :=
  match Bootstrap.loop dial ρ (s.Hostcache.Items ρ) s d [] [] with
  | none => none
  | some (s1, d1, dialed, closed) =>
    match s1.Peer with
    | none => some ⟨s1, d1, dialed, closed, some (errors_New "No peer found.".toList)⟩
    | some _ => some ⟨s1, d1, dialed, closed, none⟩

/-- The buffer `Ping` builds and writes: the identifier, the type, the TTL, the
hop count and the three bytes of the length field. -/
def pingBuf (s : Servent) : Option (List Nat) :=
  match slice s.GUID 0 s.GUID.length, PutUint16 [0, 0, 0] 0 with
  | some g, some p_len =>
    some (g ++ [byte (PAYLOAD "PING".toList)] ++ [byte TTL] ++ [byte 0] ++ p_len)
  | _, _ => none

/-- The method `Servent.Ping`: the servent with its connection afterwards, and
the error returned.  A nil `Peer` panics.  The read loop has no `break`: it is
left only by the `return` taken at the first read that fails or yields no
bytes. -/
def Ping (s : Servent) : Option (Servent × Option GoError) :=
  match s.pingBuf, s.Peer with
  | some buf, some peer =>
    match peer.Write (.bytes buf) with
    | (c1, some err) =>
      some ({ s with Peer := some c1 },
        some (errors_New (SprintfExtra "Unable to write PING: ".toList [extraError (some err)])))
    | (c1, none) =>
      match readLoop c1.reads with
      | (_, left, err) =>
        some ({ s with Peer := some { c1 with reads := left } },
          some (errors_New (SprintfExtra "Unable to read PONG: ".toList [extraError err])))
  | _, _ => none

/-- The method `Servent.ParseMessage`. -/
def ParseMessage (raw_msg : List Nat) : Option Message :=
  match slice raw_msg 0 16, raw_msg[16]?, raw_msg[17]?, raw_msg[18]?, slice raw_msg 19 22 with
  | some g, some p_type, some ttl, some hops, some l =>
    match Uint16 l with
    | none => none
    | some p_len =>
      match (if p_len > 0 then slice raw_msg 22 raw_msg.length else some []) with
      | none => none
      | some payload => some ⟨uuid_Parse g, p_type, ttl, hops, p_len, payload⟩
  | _, _, _, _, _ => none

end Servent

/-! ## `gomesh/gomesh/main.go`: the Gnutella2 peer -/

/-- The type `Peer`; `Hub` is `none` for a nil connection. -/
structure Peer where
  Guid : List Nat
  Port : Nat
  Hostcache : HostCache
  Hub : Option Conn

namespace Peer

/-- The constant `G2_MIME`. -/
def G2_MIME : Str := "application/x-gnutella2".toList

/-- The constant `USER_AGENT` of `gomesh/gomesh/main.go`. -/
def USER_AGENT : Str := "GoMesh 0.1".toList

/-- The method `Peer.CachePeers`. -/
def CachePeers (p : Peer) (t_peers : Str) (ρ : RangeOrder) (d : Disk) : Option (Peer × Disk) :=
  match Servent.CachePeers.loop (Split t_peers ",".toList) p.Hostcache with
  | none => none
  | some hc => some ({ p with Hostcache := hc }, hc.Save ρ d)

/-- The request `Connect` sends to the connection given. -/
def connectRequest (conn : Conn) : Str :=
  "GNUTELLA CONNECT/0.6\r\n".toList ++
  "Listen-IP: ".toList ++ (GetNetIP.1 ++ ":".toList ++ (Nat.repr PORT).toList) ++ "\r\n".toList ++
  "Remote-IP: ".toList ++ conn.remoteAddr ++ "\r\n".toList ++
  "User-Agent: ".toList ++ USER_AGENT ++ "\r\n".toList ++
  "Accept: application/x-gnutella2\r\n".toList ++ "X-Hub: False\r\n\r\n".toList

/-- The acknowledgment `Connect` sends. -/
def acceptPayload : Str :=
  "GNUTELLA/0.6 200 OK\r\n".toList ++ "Content-Type: ".toList ++ G2_MIME ++ "\r\n".toList ++
  "X-Hub: False\r\n\r\n".toList

/-- What `Connect` leaves behind. -/
structure Outcome where
  peer : Peer
  conn : Conn
  disk : Disk
  err : Option GoError

/-- The statement `if v, ok := h[key]; ok { p.CachePeers(v) }`. -/
def cacheHeader (h : HeaderMap) (key : Str) (p : Peer) (ρ : RangeOrder) (d : Disk) :
    Option (Peer × Disk) :=
  match h key with
  | some v => p.CachePeers v ρ d
  | none => some (p, d)

/-- The variable `hub_found` after the two role tests of `Connect`. -/
def hubFound (h : HeaderMap) : Bool :=
  let hub_found := false
  let hub_found :=
    match h "X-Hub".toList with
    | some x_hub => if !hub_found && x_hub = "True".toList then true else hub_found
    | none => hub_found
  let hub_found :=
    match h "X-Ultrapeer".toList with
    | some u_peer => if !hub_found && u_peer = "True".toList then true else hub_found
    | none => hub_found
  hub_found

/-- The checks of `Connect` on the parsed response, up to the acknowledgment. -/
def Connect.validate (h : HeaderMap) : Option GoError :=
  if ¬ Contains (h.get "Title".toList) "200".toList = true then
    some (errors_New (h.get "Title".toList))
  else if h.get "Content-Type".toList ≠ G2_MIME then
    some (errors_New (SprintfExtra "Invalid content-type header: ".toList
      [extraString (h.get "Content-Type".toList)]))
  else if h.get "Accept".toList ≠ G2_MIME then
    some (errors_New (SprintfExtra "Invalid accept header: ".toList
      [extraString (h.get "Accept".toList)]))
  else if ¬ hubFound h = true then
    some (errors_New "Peer not a hub or ultra-peer".toList)
  else none

/-- The method `Peer.Connect`. -/
def Connect (p : Peer) (conn : Conn) (ρ : RangeOrder) (d : Disk) : Option Outcome :=
  match GetNetIP with
  | (_, some err) => some ⟨p, conn, d, some err⟩
  | (_, none) =>
    match conn.Write (.text (connectRequest conn)) with
    | (c1, some err) => some ⟨p, c1, d, some err⟩
    | (c1, none) =>
      match readLoop c1.reads with
      | (buf, left, _) =>
        let c2 : Conn := { c1 with reads := left }
        if buf.length = 0 then
          some ⟨p, c2, d, some (errors_New "Unable to read GNUTELLA CONNECT response".toList)⟩
        else
          match ParseHeaders buf with
          | none => none
          | some h =>
            match cacheHeader h "X-Try-Ultrapeers".toList p ρ d with
            | none => none
            | some (p1, d1) =>
              match cacheHeader h "X-Try-Hubs".toList p1 ρ d1 with
              | none => none
              | some (p2, d2) =>
                match Connect.validate h with
                | some err => some ⟨p2, c2, d2, some err⟩
                | none =>
                  match c2.Write (.text acceptPayload) with
                  | (c3, some err) => some ⟨p2, c3, d2, some err⟩
                  | (c3, none) => some ⟨p2, c3, d2, none⟩

end Peer

/-! ## Predicates used in the statements -/

/-- What an address must satisfy to survive a line of the cache file: no line
feed inside, no carriage return at its end, and short enough for the line to
fit the buffer of the reader. -/
def lineSafe (a : Str) : Prop :=
  '\n' ∉ a ∧ a.getLast? ≠ some '\r' ∧ byteLen a < defaultBufSize

/-- What an address must satisfy to be one line of the cache file: no line
feed inside and no carriage return at its end. -/
def lineClean (a : Str) : Prop := '\n' ∉ a ∧ a.getLast? ≠ some '\r'

/-- The value of a line that starts with `K: `, as the text after that start. -/
def valueOf (K l : Str) : Option Str :=
  if (K ++ ": ".toList).isPrefixOf l then some (l.drop (K.length + 2)) else none

/-- The values of the lines `K: v` among the given lines, in order. -/
def valuesOf (K : Str) (lines : List Str) : List Str := lines.filterMap (valueOf K)

/-- What `h_map[k] += "," + v` or `h_map[k] = v` leaves at the key. -/
def foldValue (o : Option Str) (v : Str) : Option Str :=
  match o with
  | some x => some (x ++ (",".toList ++ v))
  | none => some v

/-- No line begins with a space up to and including the first line that
contains a colon. -/
def settled : List Str → Bool
  | [] => true
  | l :: rest => l.head? ≠ some ' ' && (Contains l ":".toList || settled rest)

/-- After every line that starts with `K: `, no line begins with a space up to
and including the next line that contains a colon: no line is folded into the
entry of `K`. -/
def calmAfter (K : Str) : List Str → Bool
  | [] => true
  | l :: rest => (!(valueOf K l).isSome || settled rest) && calmAfter K rest

/-- A line that is not a line of the key `K`, and on which the parser cannot
fail: not empty, with `": "` when it has a colon, and not starting with `K: `. -/
def otherLine (K l : Str) : Prop :=
  l ≠ [] ∧ (Contains l ":".toList = true → Contains l ": ".toList = true) ∧
    (K ++ ": ".toList).isPrefixOf l = false

/-- The outcome of the `n`-th coming call of `Write` on a connection (the next
call is number 0): `none` for success. -/
def Conn.writeResult (c : Conn) (n : Nat) : Option GoError := (c.writes[n]?).getD none

/-- The text `Handshake` and `Connect` accumulate from the connection. -/
def Conn.response (c : Conn) : Str := (readLoop c.reads).1

/-- The connection after the request has been written and the response read. -/
def Conn.afterResponse (c : Conn) (request : Str) : Conn :=
  { c with writes := c.writes.tail, written := c.written ++ [Payload.text request],
           reads := (readLoop c.reads).2.1 }

/-- Following the words of the specification: the address token of an entry of
a peer list is the substring before its first space, the whole entry when it
has no space. -/
def beforeFirstSpace (entry : Str) : Str := entry.takeWhile (fun c => c ≠ ' ')

/-- Following the words of the specification (construction loads the file line
by line): the lines of a file content.  A line ends at a line feed, and a
carriage return right before that line feed is not part of it; what follows
the last line feed is a line when it is not empty.  `cur` holds the current
line reversed. -/
def fileLinesAux : Str → Str → List Str
  | cur, [] => if cur = [] then [] else [cur.reverse]
  | cur, c :: s =>
    if c = '\n' then dropCR cur.reverse :: fileLinesAux [] s else fileLinesAux (c :: cur) s

/-- The lines of a file content. -/
def fileLines (content : Str) : List Str := fileLinesAux [] content

/-- Every line of the content, its carriage return included, has fewer bytes
than the buffer of the reader; `n` counts the bytes of the current line. -/
def shortLinesAux : Nat → Str → Bool
  | n, [] => n < defaultBufSize
  | n, c :: s =>
    if c = '\n' then n < defaultBufSize && shortLinesAux 0 s
    else shortLinesAux (n + c.utf8Size) s

/-- Every line of the content is shorter than the buffer of the reader. -/
def shortLines (content : Str) : Bool := shortLinesAux 0 content

/-- A header line whose key is neither empty nor `Title`: the line contains
`": "` and starts neither with `": "` nor with `"Title: "`. -/
def headerLine (l : Str) : Bool :=
  Contains l ": ".toList && !(": ".toList).isPrefixOf l && !("Title: ".toList).isPrefixOf l

/-- A continuation line: a line that begins with a space. -/
def contLine (l : Str) : Bool := decide (l.head? = some ' ')

/-- The handshake on the connection returns an error, whatever the cache and
the file system are. -/
def handshakeFails (ρ : RangeOrder) (c : Conn) : Prop :=
  ∀ (s : Servent) (d : Disk), ∃ out, s.Handshake c ρ d = some out ∧ out.err ≠ none

/-- The handshake on the connection returns nil, whatever the cache and the file
system are. -/
def handshakeSucceeds (ρ : RangeOrder) (c : Conn) : Prop :=
  ∀ (s : Servent) (d : Disk), ∃ out, s.Handshake c ρ d = some out ∧ out.err = none

/-- The handshake on the connection leaves the cache as it is: the response
advertises no peers. -/
def handshakeQuiet (ρ : RangeOrder) (c : Conn) : Prop :=
  ∀ (s : Servent) (d : Disk) (out : Servent.Outcome),
    s.Handshake c ρ d = some out → out.servent.Hostcache = s.Hostcache

/-- The attempt on an address fails: the dial fails, or the handshake on the
connection dialed returns an error. -/
def attemptFails (dial : Str → Except GoError Conn) (ρ : RangeOrder) (b : Str) : Prop :=
  (∃ e, dial b = .error e) ∨ (∃ c, dial b = .ok c ∧ handshakeFails ρ c)

/-! ## Theorems -/

/-! ### Message framing -/

/-- A list of sixteen elements, element by element. -/
theorem length_sixteen {α : Type} (g : List α) (h : g.length = 16) :
    ∃ a0 a1 a2 a3 a4 a5 a6 a7 a8 a9 b0 b1 b2 b3 b4 b5,
      g = [a0, a1, a2, a3, a4, a5, a6, a7, a8, a9, b0, b1, b2, b3, b4, b5] := by
  match g, h with
  | [a0, a1, a2, a3, a4, a5, a6, a7, a8, a9, b0, b1, b2, b3, b4, b5], _ =>
    exact ⟨a0, a1, a2, a3, a4, a5, a6, a7, a8, a9, b0, b1, b2, b3, b4, b5, rfl⟩

/-- C1: for every servent whose identifier `g` has sixteen bytes, `Ping` writes
`g`, then the type 0x00, the TTL 5, the hop count 0 and three zero bytes of
length field, and `ParseMessage` applied to these bytes returns the message
with identifier `g`, type 0x00 (PING), ttl 5, hops 0, declared length 0 and an
empty payload. -/
theorem ping_parse_roundtrip (s : Servent) (hg : s.GUID.length = 16) :
    s.pingBuf = some (s.GUID ++ [0x00, 5, 0, 0, 0, 0]) ∧
    Servent.ParseMessage (s.GUID ++ [0x00, 5, 0, 0, 0, 0]) =
      some ⟨some s.GUID, 0x00, 5, 0, 0, []⟩ := by
  obtain ⟨a0, a1, a2, a3, a4, a5, a6, a7, a8, a9, b0, b1, b2, b3, b4, b5, hs⟩ :=
    length_sixteen s.GUID hg
  rw [Servent.pingBuf, hs]
  exact ⟨rfl, rfl⟩

/-- Witness of C1 at the identifier 1, 2, ..., 16. -/
theorem ping_parse_roundtrip_witness :
    (⟨[1, 2, 3, 4, 5, 6, 7, 8, 9, 10, 11, 12, 13, 14, 15, 16], PORT, HostCache.empty, none⟩ :
        Servent).pingBuf
      = some [1, 2, 3, 4, 5, 6, 7, 8, 9, 10, 11, 12, 13, 14, 15, 16, 0, 5, 0, 0, 0, 0] ∧
    Servent.ParseMessage [1, 2, 3, 4, 5, 6, 7, 8, 9, 10, 11, 12, 13, 14, 15, 16, 0, 5, 0, 0, 0, 0] =
      some ⟨some [1, 2, 3, 4, 5, 6, 7, 8, 9, 10, 11, 12, 13, 14, 15, 16], 0, 5, 0, 0, []⟩ :=
  ping_parse_roundtrip ⟨[1, 2, 3, 4, 5, 6, 7, 8, 9, 10, 11, 12, 13, 14, 15, 16], PORT,
    HostCache.empty, none⟩ (by decide)

/-! ### The host cache -/

theorem HostCache.mem_Add (hc : HostCache) (a b : Str) :
    b ∈ (hc.Add a).1.set ↔ b ∈ hc.set ∨ b = a := by
  unfold HostCache.Add
  by_cases h : a ∈ hc.set
  · simp only [h, if_true]
    constructor
    · exact fun hb => Or.inl hb
    · rintro (hb | rfl)
      · exact hb
      · exact h
  · simp [h]

theorem HostCache.nodup_Add (hc : HostCache) (a : Str) (h : hc.set.Nodup) :
    (hc.Add a).1.set.Nodup := by
  unfold HostCache.Add
  by_cases ha : a ∈ hc.set
  · simpa [ha] using h
  · simp only [ha, if_false]
    exact List.Nodup.append h (List.nodup_singleton a) (by simpa using ha)

/-- C2: `Add(a)` returns true exactly when `a` was not a member; afterwards `a`
is a member; when `a` was a member the set is unchanged.  Two calls of `Add(a)`
on the empty set return true then false, and `Items()` is then the single
element `a`, whatever the order of the range. -/
theorem HostCache.Add_spec (hc : HostCache) (a : Str) (ρ : RangeOrder) (hρ : ρ.Valid) :
    ((hc.Add a).2 = true ↔ a ∉ hc.set) ∧
    a ∈ (hc.Add a).1.set ∧
    (a ∈ hc.set → (hc.Add a).1 = hc) ∧
    (HostCache.empty.Add a).2 = true ∧
    ((HostCache.empty.Add a).1.Add a).2 = false ∧
    ((HostCache.empty.Add a).1.Add a).1.Items ρ = [a] := by
  refine ⟨?_, ?_, ?_, ?_, ?_, ?_⟩
  · unfold HostCache.Add
    by_cases h : a ∈ hc.set <;> simp [h]
  · exact (HostCache.mem_Add hc a a).2 (Or.inr rfl)
  · intro h
    simp [HostCache.Add, h]
  · simp [HostCache.Add, HostCache.empty]
  · simp [HostCache.Add, HostCache.empty]
  · have h1 : ((HostCache.empty.Add a).1.Add a).1.set = [a] := by
      simp [HostCache.Add, HostCache.empty]
    unfold HostCache.Items
    rw [h1]
    exact List.perm_singleton.mp (hρ [a])

/-- Witness of C2 at the cache holding `a:1`, the address `b:2` and the range
that visits the keys in the stored order. -/
theorem HostCache.Add_spec_witness :
    RangeOrder.Valid id ∧
    (((⟨["a:1".toList]⟩ : HostCache).Add "b:2".toList).2 = true ↔
      "b:2".toList ∉ (⟨["a:1".toList]⟩ : HostCache).set) ∧
    "b:2".toList ∈ ((⟨["a:1".toList]⟩ : HostCache).Add "b:2".toList).1.set ∧
    ("b:2".toList ∈ (⟨["a:1".toList]⟩ : HostCache).set →
      ((⟨["a:1".toList]⟩ : HostCache).Add "b:2".toList).1 = ⟨["a:1".toList]⟩) ∧
    (HostCache.empty.Add "b:2".toList).2 = true ∧
    ((HostCache.empty.Add "b:2".toList).1.Add "b:2".toList).2 = false ∧
    ((HostCache.empty.Add "b:2".toList).1.Add "b:2".toList).1.Items id = ["b:2".toList] :=
  ⟨fun l => List.Perm.refl l,
    HostCache.Add_spec ⟨["a:1".toList]⟩ "b:2".toList id (fun l => List.Perm.refl l)⟩

/-! ### Saving and loading -/

theorem cutLine_line (a r : Str) (h : '\n' ∉ a) :
    cutLine (a ++ '\n' :: r) = (a, true, r) := by
  induction a with
  | nil => simp [cutLine]
  | cons c t ih =>
    have hc : c ≠ '\n' := fun e => h (by simp [e])
    have ht : '\n' ∉ t := fun e => h (List.mem_cons_of_mem _ e)
    simp [cutLine, hc, ih ht]

theorem dropCR_of_getLast (a : Str) (h : a.getLast? ≠ some '\r') : dropCR a = a := by
  unfold dropCR
  split
  · rename_i t ht
    exfalso
    apply h
    have : a = (('\r' :: t : Str)).reverse := by rw [← ht, List.reverse_reverse]
    rw [this]
    simp
  · rfl

theorem ReadLine_line (a r : Str) (h : lineSafe a) :
    ReadLine (a ++ '\n' :: r) = ⟨a, false, false, r⟩ := by
  obtain ⟨h1, h2, h3⟩ := h
  have hlen : byteLen a + 1 ≤ defaultBufSize := h3
  simp only [ReadLine, cutLine_line a r h1, hlen, if_true, dropCR_of_getLast a h2]

theorem ReadLine_nil : ReadLine [] = ⟨[], false, true, []⟩ := by decide

theorem loadLoop_writeItems (items : List Str) (hs : ∀ a ∈ items, lineSafe a) :
    ∀ (fuel : Nat) (hc : HostCache), items.length + 1 ≤ fuel →
      loadLoop fuel (ReadLine (HostCache.writeItems items)) hc =
        items.foldl (fun c a => (c.Add a).1) hc := by
  induction items with
  | nil =>
    intro fuel hc hf
    obtain ⟨n, rfl⟩ : ∃ n, fuel = n + 1 := ⟨fuel - 1, by simp at hf; omega⟩
    simp [HostCache.writeItems, ReadLine_nil, loadLoop]
  | cons a rest ih =>
    intro fuel hc hf
    obtain ⟨n, rfl⟩ : ∃ n, fuel = n + 1 := ⟨fuel - 1, by simp at hf; omega⟩
    have ha : lineSafe a := hs a (List.mem_cons_self _ _)
    have hr : ∀ b ∈ rest, lineSafe b := fun b hb => hs b (List.mem_cons_of_mem _ hb)
    have hw : HostCache.writeItems (a :: rest) = a ++ '\n' :: HostCache.writeItems rest := by
      simp [HostCache.writeItems]
    rw [hw, ReadLine_line a _ ha]
    simp only [loadLoop, and_self, if_true, List.foldl_cons]
    exact ih hr n _ (by simp at hf ⊢; omega)

theorem foldl_Add_set (items : List Str) :
    ∀ hc : HostCache, (hc.set ++ items).Nodup →
      (items.foldl (fun c a => (c.Add a).1) hc).set = hc.set ++ items := by
  induction items with
  | nil => intro hc _; simp
  | cons a rest ih =>
    intro hc hn
    have ha : a ∉ hc.set := by
      intro hmem
      have := List.nodup_append.1 hn
      exact this.2.2 hmem (List.mem_cons_self _ _)
    have h1 : (hc.Add a).1 = ⟨hc.set ++ [a]⟩ := by simp [HostCache.Add, ha]
    rw [List.foldl_cons, h1, ih]
    · simp
    · simpa using hn

theorem length_le_writeItems (items : List Str) :
    items.length ≤ (HostCache.writeItems items).length := by
  induction items with
  | nil => simp
  | cons a rest ih => simp [HostCache.writeItems]; omega

theorem loadContent_writeItems (items : List Str) (hn : items.Nodup)
    (hs : ∀ a ∈ items, lineSafe a) :
    (loadContent (HostCache.writeItems items)).set = items := by
  unfold loadContent
  rw [loadLoop_writeItems items hs _ _ (by have := length_le_writeItems items; omega),
    foldl_Add_set items HostCache.empty (by simpa [HostCache.empty] using hn)]
  simp [HostCache.empty]

theorem Save_file (hc : HostCache) (ρ : RangeOrder) (d : Disk)
    (hcreate : d.file = none → d.createErr = none) (hopen : d.openErr = none) :
    (hc.Save ρ d).file = some (HostCache.writeItems (hc.Items ρ)) := by
  unfold HostCache.Save CreateIfNotExist
  cases hf : d.file with
  | none => simp [hcreate hf, hopen]
  | some c => simp [hopen]

/-- C3, as the code has it: for every set of distinct addresses each of which
has no line feed inside, no carriage return at its end and fewer than 4096
bytes, on a file system that lets the file be created and opened, `Save` writes
a file from which the load loop of `NewHostCache` rebuilds a set with exactly
the same addresses, whatever the order `Save` wrote them in. -/
theorem save_load_roundtrip (hc : HostCache) (ρ : RangeOrder) (d : Disk) (hρ : ρ.Valid)
    (hn : hc.set.Nodup) (hs : ∀ a ∈ hc.set, lineSafe a)
    (hcreate : d.file = none → d.createErr = none) (hopen : d.openErr = none) :
    ∃ content, (hc.Save ρ d).file = some content ∧
      (loadContent content).set.Perm hc.set ∧ (loadContent content).set.Nodup ∧
      (loadContent content).set.length = hc.set.length := by
  have hp : (hc.Items ρ).Perm hc.set := hρ hc.set
  have h1 : (loadContent (HostCache.writeItems (hc.Items ρ))).set = hc.Items ρ :=
    loadContent_writeItems _ (hp.nodup_iff.2 hn) (fun a ha => hs a (hp.mem_iff.1 ha))
  refine ⟨_, Save_file hc ρ d hcreate hopen, ?_, ?_, ?_⟩
  · rw [h1]; exact hp
  · rw [h1]; exact hp.nodup_iff.2 hn
  · rw [h1]; exact hp.length_eq

/-- Witness of C3 at the set of `10.0.0.1:6346` and `10.0.0.2:6346`, written in
reverse order to a file system without the file. -/
theorem save_load_roundtrip_witness :
    ∃ content,
      ((⟨["10.0.0.1:6346".toList, "10.0.0.2:6346".toList]⟩ : HostCache).Save List.reverse
        ⟨none, none, none⟩).file = some content ∧
      (loadContent content).set.Perm ["10.0.0.1:6346".toList, "10.0.0.2:6346".toList] ∧
      (loadContent content).set.Nodup ∧
      (loadContent content).set.length = 2 :=
  save_load_roundtrip ⟨["10.0.0.1:6346".toList, "10.0.0.2:6346".toList]⟩ List.reverse
    ⟨none, none, none⟩ (fun l => List.reverse_perm l) (by decide)
    (by
      intro a ha
      simp only [List.mem_cons, List.mem_singleton, List.not_mem_nil, or_false] at ha
      rcases ha with rfl | rfl <;> exact ⟨by decide, by decide, by decide⟩)
    (fun _ => rfl) rfl

/-- C3 fails for an address with a line feed inside: the set holding the one
address `a\nb` is saved as the two lines `a` and `b`, and loading gives a set
of two addresses, neither of which is the one saved. -/
theorem save_load_counterexample :
    ((⟨["a\nb".toList]⟩ : HostCache).Save id ⟨none, none, none⟩).file = some "a\nb\n".toList ∧
    (loadContent "a\nb\n".toList).set = ["a".toList, "b".toList] ∧
    ¬ (loadContent "a\nb\n".toList).set.Perm (⟨["a\nb".toList]⟩ : HostCache).set := by
  refine ⟨by decide, by decide, ?_⟩
  intro h
  have := h.length_eq
  revert this
  decide

/-! ### Splitting -/

theorem splitAux_ne_nil (sep : Str) : ∀ (s cur : Str) (k : Nat), splitAux sep s cur k ≠ [] := by
  intro s
  induction s with
  | nil => intro cur k; simp [splitAux]
  | cons c t ih =>
    intro cur k
    cases k with
    | zero =>
      unfold splitAux
      split
      · simp
      · exact ih _ _
    | succ n =>
      unfold splitAux
      exact ih _ _

/-- A text without the separator is a single fragment. -/
theorem splitAux_of_not_Contains (sep : Str) :
    ∀ (s cur : Str), Contains s sep = false → splitAux sep s cur 0 = [cur.reverse ++ s] := by
  intro s
  induction s with
  | nil => intro cur _; simp [splitAux]
  | cons c t ih =>
    intro cur h
    simp only [Contains, Bool.or_eq_false_iff] at h
    unfold splitAux
    simp only [h.1, Bool.false_eq_true, if_false]
    rw [ih _ h.2]
    simp

/-- The first two fragments of a split: the text starts with the first fragment
followed by the separator. -/
theorem splitAux_cons_cons (sep : Str) :
    ∀ (s cur k v : Str) (r : List Str), splitAux sep s cur 0 = k :: v :: r →
      ∃ p, k = cur.reverse ++ p ∧ (p ++ sep) <+: s := by
  intro s
  induction s with
  | nil => intro cur k v r h; simp [splitAux] at h
  | cons c t ih =>
    intro cur k v r h
    unfold splitAux at h
    split at h
    · rename_i hp
      refine ⟨[], ?_, ?_⟩
      · simp only [List.cons.injEq] at h
        simp [h.1]
      · simpa using List.isPrefixOf_iff_prefix.1 hp
    · obtain ⟨p, hk, hpre⟩ := ih _ _ _ _ h
      refine ⟨c :: p, ?_, ?_⟩
      · simp [hk]
      · obtain ⟨u, hu⟩ := hpre
        exact ⟨u, by simp [← hu]⟩

theorem Split_cons_cons (s sep k v : Str) (r : List Str) (h : Split s sep = k :: v :: r) :
    (k ++ sep) <+: s := by
  obtain ⟨p, hk, hp⟩ := splitAux_cons_cons sep s [] k v r h
  simp at hk
  rw [hk]
  exact hp

/-- A text that contains the separator splits into at least two fragments. -/
theorem splitAux_of_Contains (sep : Str) (hsep : sep ≠ []) :
    ∀ (s cur : Str), Contains s sep = true → ∃ k v r, splitAux sep s cur 0 = k :: v :: r := by
  intro s
  induction s with
  | nil =>
    intro cur h
    cases sep with
    | nil => exact absurd rfl hsep
    | cons a b => simp [Contains, List.isPrefixOf] at h
  | cons c t ih =>
    intro cur h
    unfold splitAux
    by_cases hp : sep.isPrefixOf (c :: t) = true
    · simp only [hp, if_true]
      cases hq : splitAux sep t [] (sep.length - 1) with
      | nil => exact absurd hq (splitAux_ne_nil sep _ _ _)
      | cons v r => exact ⟨_, v, r, rfl⟩
    · simp only [hp, if_false]
      simp only [Contains, Bool.or_eq_true] at h
      rcases h with h | h
      · exact absurd h hp
      · exact ih _ h

theorem Split_of_Contains (s sep : Str) (hsep : sep ≠ []) (h : Contains s sep = true) :
    ∃ k v r, Split s sep = k :: v :: r :=
  splitAux_of_Contains sep hsep s [] h

/-- Scanning a text that holds `": "` after a key free of it. -/
theorem splitAux_key (K t : Str) (hK : Contains K ": ".toList = false) :
    ∀ cur : Str, splitAux ": ".toList (K ++ ':' :: ' ' :: t) cur 0 =
      (cur.reverse ++ K) :: splitAux ": ".toList t [] 0 := by
  induction K with
  | nil =>
    intro cur
    simp [splitAux, List.isPrefixOf]
  | cons c K ih =>
    intro cur
    simp only [Contains, Bool.or_eq_false_iff] at hK
    have hp : List.isPrefixOf ": ".toList (c :: (K ++ ':' :: ' ' :: t)) = false := by
      have h1 := hK.1
      cases K with
      | nil =>
        simp only [String.toList, List.isPrefixOf, List.nil_append, Bool.and_eq_false_iff] at h1 ⊢
        right; left; decide
      | cons e K =>
        simpa [String.toList, List.isPrefixOf] using h1
    rw [List.cons_append, splitAux]
    simp only [hp, Bool.false_eq_true, if_false]
    rw [ih hK.2]
    simp

/-- A line `K: V` with key and value free of `": "` splits into key and value. -/
theorem Split_key_value (K V : Str) (hK : Contains K ": ".toList = false)
    (hV : Contains V ": ".toList = false) :
    Split (K ++ ": ".toList ++ V) ": ".toList = [K, V] := by
  have h := splitAux_key K V hK []
  have h2 := splitAux_of_not_Contains ": ".toList V [] hV
  unfold Split
  simp only [String.toList, List.append_assoc, List.cons_append, List.nil_append] at h h2 ⊢
  rw [h, h2]
  simp

/-- A line `K: V` contains a colon. -/
theorem Contains_colon_key_value (K V : Str) :
    Contains (K ++ ": ".toList ++ V) ":".toList = true := by
  induction K with
  | nil => simp [Contains, List.isPrefixOf, String.toList]
  | cons c K ih =>
    simp only [List.cons_append, Contains, Bool.or_eq_true]
    right
    simpa using ih

/-! ### The header parser -/

theorem HeaderMap.set_ne (m : HeaderMap) (k v x : Str) (h : x ≠ k) : m.set k v x = m x := by
  simp [HeaderMap.set, h]

theorem HeaderMap.set_self (m : HeaderMap) (k v : Str) : m.set k v k = some v := by
  simp [HeaderMap.set]

/-- A line that is not a line of `K` leaves the entry of `K` as it is, unless it
begins with a space while `K` is the key seen last. -/
theorem step_frame (K : Str) (hT : K ≠ "Title".toList) (st : ParseState) (l : Str)
    (hl : otherLine K l) (hsp : st.i_key = K → K ≠ [] → l.head? ≠ some ' ') :
    ∃ st1, ParseHeaders.step st l = some st1 ∧ st1.h_map K = st.h_map K ∧
      (st1.i_key = K → st.i_key = K ∧ Contains l ":".toList = false) := by
  obtain ⟨hne, hcolon, hpre⟩ := hl
  cases l with
  | nil => exact absurd rfl hne
  | cons c t =>
    simp only [ParseHeaders.step]
    by_cases h1 : c = ' ' ∧ st.i_key.length > 0
    · have hik : st.i_key ≠ K := by
        intro e
        exact hsp e (by rw [← e]; exact List.length_pos.1 h1.2) (by simp [h1.1])
      rw [if_pos h1]
      cases hv : st.h_map st.i_key with
      | none => exact ⟨st, rfl, rfl, fun e => absurd e hik⟩
      | some v =>
        refine ⟨_, rfl, ?_, fun e => absurd e hik⟩
        exact HeaderMap.set_ne _ _ _ _ (Ne.symm hik)
    · rw [if_neg h1]
      by_cases h2 : Contains (c :: t) ":".toList = true
      · rw [if_pos h2]
        obtain ⟨k, v, r, hs⟩ := Split_of_Contains (c :: t) ": ".toList (by decide) (hcolon h2)
        have hk : k ≠ K := by
          intro e
          have := Split_cons_cons _ _ _ _ _ hs
          rw [e] at this
          rw [List.isPrefixOf_iff_prefix.2 this] at hpre
          exact Bool.noConfusion hpre
        rw [hs]
        dsimp only
        cases hv : st.h_map k with
        | none =>
          exact ⟨_, rfl, HeaderMap.set_ne _ _ _ _ (Ne.symm hk), fun e => absurd e hk⟩
        | some x =>
          exact ⟨_, rfl, HeaderMap.set_ne _ _ _ _ (Ne.symm hk), fun e => absurd e hk⟩
      · rw [if_neg h2]
        refine ⟨_, rfl, HeaderMap.set_ne _ _ _ _ hT, fun e => ⟨e, ?_⟩⟩
        simpa using h2

/-- A line `K: v` that does not begin with a space appends `v` to the entry of
`K` and makes `K` the key seen last. -/
theorem step_key (K v : Str) (st : ParseState) (hK : Contains K ": ".toList = false)
    (hv : Contains v ": ".toList = false)
    (hsp : (K ++ ": ".toList ++ v).head? ≠ some ' ') :
    ParseHeaders.step st (K ++ ": ".toList ++ v) =
      some ⟨st.h_map.set K ((foldValue (st.h_map K) v).getD []), K⟩ := by
  have hcont := Contains_colon_key_value K v
  have hsplit := Split_key_value K v hK hv
  generalize K ++ ": ".toList ++ v = l at hcont hsplit hsp
  cases l with
  | nil => simp [Split, splitAux] at hsplit
  | cons c t =>
    have hc : ¬ (c = ' ' ∧ st.i_key.length > 0) := by
      intro h
      exact hsp (by simp [h.1])
    simp only [ParseHeaders.step]
    rw [if_neg hc, if_pos hcont, hsplit]
    dsimp only
    cases hm : st.h_map K <;> simp [foldValue]

/-- A line that begins with a space, read while a key with an entry is the key
seen last, is appended to that entry after one space, trimmed. -/
theorem step_cont (st : ParseState) (l x : Str) (hl : l.head? = some ' ')
    (hk : st.i_key ≠ []) (hx : st.h_map st.i_key = some x) :
    ParseHeaders.step st l =
      some ⟨st.h_map.set st.i_key (x ++ (" ".toList ++ TrimSpace l)), st.i_key⟩ := by
  cases l with
  | nil => simp at hl
  | cons c t =>
    have hc : c = ' ' ∧ st.i_key.length > 0 := by
      constructor
      · simpa using hl
      · exact List.length_pos.2 hk
    simp only [ParseHeaders.step]
    rw [if_pos hc, hx]

theorem loop_append (a b : List Str) :
    ∀ st, ParseHeaders.loop (a ++ b) st = (ParseHeaders.loop a st).bind (ParseHeaders.loop b) := by
  induction a with
  | nil => intro st; simp [ParseHeaders.loop]
  | cons l rest ih =>
    intro st
    simp only [List.cons_append, ParseHeaders.loop]
    cases ParseHeaders.step st l with
    | none => simp
    | some st1 => simpa using ih st1

/-- Lines that are not lines of `K` leave the entry of `K` as it is. -/
theorem loop_frame (K : Str) (hT : K ≠ "Title".toList) :
    ∀ (lines : List Str) (st : ParseState), (∀ l ∈ lines, otherLine K l) →
      (st.i_key = K → K ≠ [] → settled lines = true) →
      ∃ st1, ParseHeaders.loop lines st = some st1 ∧ st1.h_map K = st.h_map K := by
  intro lines
  induction lines with
  | nil => intro st _ _; exact ⟨st, rfl, rfl⟩
  | cons l rest ih =>
    intro st hl hs
    have hsp : st.i_key = K → K ≠ [] → l.head? ≠ some ' ' := by
      intro e hne
      have := hs e hne
      simp only [settled, Bool.and_eq_true, decide_eq_true_eq] at this
      exact this.1
    obtain ⟨st1, h1, h2, h3⟩ := step_frame K hT st l (hl l (List.mem_cons_self _ _)) hsp
    have hs1 : st1.i_key = K → K ≠ [] → settled rest = true := by
      intro e hne
      obtain ⟨e0, hc⟩ := h3 e
      have := hs e0 hne
      simp only [settled, Bool.and_eq_true, decide_eq_true_eq, Bool.or_eq_true] at this
      rcases this.2 with h | h
      · rw [hc] at h; exact Bool.noConfusion h
      · exact h
    obtain ⟨st2, h4, h5⟩ := ih st1 (fun x hx => hl x (List.mem_cons_of_mem _ hx)) hs1
    refine ⟨st2, ?_, h5.trans h2⟩
    simp only [ParseHeaders.loop, h1, h4]

theorem valueOf_some (K l v : Str) (h : valueOf K l = some v) : l = K ++ ": ".toList ++ v := by
  unfold valueOf at h
  split at h
  · rename_i hp
    have hpre := List.isPrefixOf_iff_prefix.1 hp
    have := List.prefix_iff_eq_append.1 hpre
    simp only [Option.some.injEq] at h
    rw [← h, ← this]
    congr 1
    simp [String.toList]
  · exact Option.noConfusion h

theorem valueOf_none (K l : Str) (h : valueOf K l = none) :
    (K ++ ": ".toList).isPrefixOf l = false := by
  unfold valueOf at h
  split at h
  · exact Option.noConfusion h
  · rename_i hp
    exact Bool.eq_false_iff.mpr hp

theorem joinWith_cons_cons (sep x v : Str) (t : List Str) :
    joinWith sep ((x ++ (sep ++ v)) :: t) = x ++ sep ++ joinWith sep (v :: t) := by
  cases t with
  | nil => simp [joinWith]
  | cons w t => simp [joinWith]

theorem foldl_foldValue_some :
    ∀ (vs : List Str) (x : Str),
      vs.foldl foldValue (some x) = some (joinWith ",".toList (x :: vs)) := by
  intro vs
  induction vs with
  | nil => intro x; simp [joinWith]
  | cons v t ih =>
    intro x
    rw [List.foldl_cons]
    show List.foldl foldValue (some (x ++ (",".toList ++ v))) t = _
    rw [ih, joinWith_cons_cons]
    simp [joinWith]

/-- Lines of which none is folded into the entry of `K`: the entry of `K`
collects the values of the lines `K: v`, in order. -/
theorem loop_values (K : Str) (hK : Contains K ": ".toList = false) (hT : K ≠ "Title".toList)
    (hKsp : K.head? ≠ some ' ') :
    ∀ (lines : List Str) (st : ParseState),
      (∀ l ∈ lines, l ≠ [] ∧ (Contains l ":".toList = true → Contains l ": ".toList = true)) →
      (∀ v ∈ valuesOf K lines, Contains v ": ".toList = false) →
      calmAfter K lines = true →
      (st.i_key = K → K ≠ [] → settled lines = true) →
      ∃ st1, ParseHeaders.loop lines st = some st1 ∧
        st1.h_map K = (valuesOf K lines).foldl foldValue (st.h_map K) := by
  intro lines
  induction lines with
  | nil => intro st _ _ _ _; exact ⟨st, rfl, rfl⟩
  | cons l rest ih =>
    intro st hl hv hcalm hs
    obtain ⟨hne, hcolon⟩ := hl l (List.mem_cons_self _ _)
    have hrest := fun x hx => hl x (List.mem_cons_of_mem l hx)
    simp only [calmAfter, Bool.and_eq_true, Bool.or_eq_true, Bool.not_eq_true'] at hcalm
    obtain ⟨hcalm1, hcalm2⟩ := hcalm
    cases hvo : valueOf K l with
    | none =>
      have hvals : valuesOf K (l :: rest) = valuesOf K rest := by
        simp [valuesOf, List.filterMap_cons, hvo]
      have hsp : st.i_key = K → K ≠ [] → l.head? ≠ some ' ' := by
        intro e hKne
        have := hs e hKne
        simp only [settled, Bool.and_eq_true, decide_eq_true_eq] at this
        exact this.1
      obtain ⟨st1, h1, h2, h3⟩ :=
        step_frame K hT st l ⟨hne, hcolon, valueOf_none K l hvo⟩ hsp
      have hs1 : st1.i_key = K → K ≠ [] → settled rest = true := by
        intro e hKne
        obtain ⟨e0, hc⟩ := h3 e
        have := hs e0 hKne
        simp only [settled, Bool.and_eq_true, decide_eq_true_eq, Bool.or_eq_true] at this
        rcases this.2 with h | h
        · rw [hc] at h; exact Bool.noConfusion h
        · exact h
      obtain ⟨st2, h4, h5⟩ := ih st1 hrest (fun v hx => hv v (by rw [hvals]; exact hx))
        hcalm2 hs1
      refine ⟨st2, ?_, ?_⟩
      · simp only [ParseHeaders.loop, h1, h4]
      · rw [h5, h2, hvals]
    | some v =>
      have hvals : valuesOf K (l :: rest) = v :: valuesOf K rest := by
        simp [valuesOf, List.filterMap_cons, hvo]
      have hlv := valueOf_some K l v hvo
      have hfree : Contains v ": ".toList = false :=
        hv v (by rw [hvals]; exact List.mem_cons_self _ _)
      have hhead : (K ++ ": ".toList ++ v).head? ≠ some ' ' := by
        cases K with
        | nil => simp [String.toList]
        | cons a K => simpa using hKsp
      have h1 := step_key K v st hK hfree hhead
      rw [← hlv] at h1
      have hs1 : settled rest = true := by
        rcases hcalm1 with h | h
        · rw [hvo] at h; exact Bool.noConfusion h
        · exact h
      obtain ⟨st2, h3, h4⟩ := ih ⟨st.h_map.set K ((foldValue (st.h_map K) v).getD []), K⟩ hrest
        (fun w hx => hv w (by rw [hvals]; exact List.mem_cons_of_mem _ hx)) hcalm2
        (fun _ _ => hs1)
      refine ⟨st2, ?_, ?_⟩
      · simp only [ParseHeaders.loop, h1, h3]
      · rw [h4, hvals, List.foldl_cons]
        congr 1
        dsimp only
        rw [HeaderMap.set_self]
        cases st.h_map K <;> rfl

/-- C6, as the code has it: let the lines of a header text (the trimmed text
split at CRLF) be non-empty and contain `": "` when they contain a colon; let
`K` be a key free of `": "`, not beginning with a space and other than `Title`;
let the lines that start with `K: ` be `K: v1`, ..., `K: vn` in that order,
`n ≥ 1`, each value free of `": "`; and after each of them let no line begin
with a space before the next line with a colon has been passed.  Then
`ParseHeaders` returns a map in which `K` is `v1,v2,...,vn`; a key that appears
once maps to its value. -/
theorem ParseHeaders_repeated_keys (text K : Str) (vs : List Str)
    (hK : Contains K ": ".toList = false) (hT : K ≠ "Title".toList)
    (hKsp : K.head? ≠ some ' ')
    (hlines : ∀ l ∈ headerLines text, l ≠ [] ∧
      (Contains l ":".toList = true → Contains l ": ".toList = true))
    (hvs : valuesOf K (headerLines text) = vs) (hne : vs ≠ [])
    (hfree : ∀ v ∈ vs, Contains v ": ".toList = false)
    (hcalm : calmAfter K (headerLines text) = true) :
    ∃ m, ParseHeaders text = some m ∧ m K = some (joinWith ",".toList vs) ∧
      (∀ v, vs = [v] → m K = some v) := by
  obtain ⟨st1, h1, h2⟩ := loop_values K hK hT hKsp (headerLines text) ⟨fun _ => none, []⟩ hlines
    (by rw [hvs]; exact hfree) hcalm (fun e hKne => absurd e.symm hKne)
  have hm : st1.h_map K = some (joinWith ",".toList vs) := by
    rw [h2, hvs]
    cases vs with
    | nil => exact absurd rfl hne
    | cons v t =>
      rw [List.foldl_cons]
      exact foldl_foldValue_some t v
  refine ⟨st1.h_map, ?_, hm, ?_⟩
  · simp [ParseHeaders, h1]
  · intro v e
    rw [hm, e]
    rfl

/-- Witness of C6: a response with a status line, two `X-Try` lines and, between
them, a line of another key with a continuation line. -/
theorem ParseHeaders_repeated_keys_witness :
    ∃ m, ParseHeaders
        "GNUTELLA/0.6 200 OK\r\nX-Try: 1.2.3.4:6346\r\nUser-Agent: x\r\n y\r\nX-Try: 5.6.7.8:6346\r\n\r\n".toList
        = some m ∧
      m "X-Try".toList =
        some (joinWith ",".toList ["1.2.3.4:6346".toList, "5.6.7.8:6346".toList]) ∧
      (∀ v, ["1.2.3.4:6346".toList, "5.6.7.8:6346".toList] = [v] → m "X-Try".toList = some v) :=
  ParseHeaders_repeated_keys
    "GNUTELLA/0.6 200 OK\r\nX-Try: 1.2.3.4:6346\r\nUser-Agent: x\r\n y\r\nX-Try: 5.6.7.8:6346\r\n\r\n".toList
    "X-Try".toList ["1.2.3.4:6346".toList, "5.6.7.8:6346".toList]
    (by decide) (by decide) (by decide) (by decide) (by decide) (by decide) (by decide) (by decide)

/-- C6 fails when a line that begins with a space follows the last line of the
key: for `Accept: a`, `Accept: b` and the line ` c` the key `Accept` maps to
`a,b c`, not to `a,b`. -/
theorem ParseHeaders_repeated_keys_counterexample :
    headerLines "Accept: a\r\nAccept: b\r\n c".toList =
      ["Accept: a".toList, "Accept: b".toList, " c".toList] ∧
    (ParseHeaders "Accept: a\r\nAccept: b\r\n c".toList).map (fun m => m "Accept".toList) =
      some (some "a,b c".toList) ∧
    (ParseHeaders "Accept: a\r\nAccept: b\r\n c".toList).map (fun m => m "Accept".toList) ≠
      some (some (joinWith ",".toList ["a".toList, "b".toList])) := by
  refine ⟨by decide, by decide, by decide⟩

/-- C5, as the code has it: let the lines of a header text (the trimmed text
split at CRLF) hold a line `K: V` directly followed by a line `c` that begins
with a space, where `K` is not empty, does not begin with a space and is not
`Title`, and `K` and `V` are free of `": "`; let every other line be non-empty,
contain `": "` when it contains a colon, and not start with `K: `; and let no
line after `c` begin with a space before the next line with a colon has been
passed.  Then `ParseHeaders` returns a map in which `K` is `V`, one space, and
`c` trimmed.  For the input of the specification `X-Try` is
`1.2.3.4:6346 X-extra`. -/
theorem ParseHeaders_continuation (text K V c : Str) (before after : List Str)
    (hlines : headerLines text = before ++ [K ++ ": ".toList ++ V, c] ++ after)
    (hKne : K ≠ []) (hKsp : K.head? ≠ some ' ') (hT : K ≠ "Title".toList)
    (hK : Contains K ": ".toList = false) (hV : Contains V ": ".toList = false)
    (hc : c.head? = some ' ')
    (hother : ∀ l ∈ before ++ after, otherLine K l)
    (hafter : settled after = true) :
    (∃ m, ParseHeaders text = some m ∧ m K = some (V ++ " ".toList ++ TrimSpace c)) ∧
    (ParseHeaders "Title: 200 OK\r\nX-Try: 1.2.3.4:6346\r\n X-extra\r\n\r\n".toList).map
      (fun m => m "X-Try".toList) = some (some "1.2.3.4:6346 X-extra".toList) := by
  refine ⟨?_, by decide⟩
  obtain ⟨st1, h1, h2⟩ := loop_frame K hT before ⟨fun _ => none, []⟩
    (fun l hl => hother l (List.mem_append_left _ hl)) (fun e _ => absurd e.symm hKne)
  have hhead : (K ++ ": ".toList ++ V).head? ≠ some ' ' := by
    cases K with
    | nil => exact absurd rfl hKne
    | cons a K => simpa using hKsp
  have h3 := step_key K V st1 hK hV hhead
  have h2n : st1.h_map K = none := h2
  rw [h2n] at h3
  have h4 := step_cont ⟨st1.h_map.set K ((foldValue none V).getD []), K⟩ c V hc hKne
    (by simp [HeaderMap.set, foldValue])
  obtain ⟨st4, h5, h6⟩ := loop_frame K hT after
    ⟨(st1.h_map.set K ((foldValue none V).getD [])).set K (V ++ (" ".toList ++ TrimSpace c)), K⟩
    (fun l hl => hother l (List.mem_append_right _ hl)) (fun _ _ => hafter)
  refine ⟨st4.h_map, ?_, ?_⟩
  · unfold ParseHeaders
    rw [hlines, loop_append, loop_append, h1]
    simp only [Option.bind_eq_bind, Option.some_bind, ParseHeaders.loop, h3, h4, h5,
      Option.map_some']
  · rw [h6]
    dsimp only
    rw [HeaderMap.set_self]
    simp

/-- Witness of C5: the input of the specification. -/
theorem ParseHeaders_continuation_witness :
    (∃ m, ParseHeaders "Title: 200 OK\r\nX-Try: 1.2.3.4:6346\r\n X-extra\r\n\r\n".toList = some m ∧
      m "X-Try".toList = some ("1.2.3.4:6346".toList ++ " ".toList ++ TrimSpace " X-extra".toList)) ∧
    (ParseHeaders "Title: 200 OK\r\nX-Try: 1.2.3.4:6346\r\n X-extra\r\n\r\n".toList).map
      (fun m => m "X-Try".toList) = some (some "1.2.3.4:6346 X-extra".toList) :=
  ParseHeaders_continuation "Title: 200 OK\r\nX-Try: 1.2.3.4:6346\r\n X-extra\r\n\r\n".toList
    "X-Try".toList "1.2.3.4:6346".toList " X-extra".toList ["Title: 200 OK".toList] []
    (by decide) (by decide) (by decide) (by decide) (by decide) (by decide) (by decide)
    (by
      intro l hl
      simp only [List.append_nil, List.mem_singleton] at hl
      subst hl
      exact ⟨by decide, by decide, by decide⟩)
    (by decide)

/-- C5 fails when the key occurs in an earlier line: for `X-Try: a`, `X-Try: b`
and the line ` c` the key `X-Try` maps to `a,b c`, not to `b c`. -/
theorem ParseHeaders_continuation_counterexample :
    headerLines "X-Try: a\r\nX-Try: b\r\n c".toList =
      ["X-Try: a".toList, "X-Try: b".toList, " c".toList] ∧
    (ParseHeaders "X-Try: a\r\nX-Try: b\r\n c".toList).map (fun m => m "X-Try".toList) =
      some (some "a,b c".toList) ∧
    (ParseHeaders "X-Try: a\r\nX-Try: b\r\n c".toList).map (fun m => m "X-Try".toList) ≠
      some (some ("b".toList ++ " ".toList ++ TrimSpace " c".toList)) := by
  refine ⟨by decide, by decide, by decide⟩

/-! ### Connections -/

theorem Conn.Write_ok (c : Conn) (p : Payload) (h : c.writeResult 0 = none) :
    c.Write p = ({ c with writes := c.writes.tail, written := c.written ++ [p] }, none) := by
  obtain ⟨ra, rd, ws, wr, cl⟩ := c
  cases ws with
  | nil => rfl
  | cons w ws =>
    cases w with
    | none => rfl
    | some e => simp [Conn.writeResult] at h

theorem Conn.Write_err (c : Conn) (p : Payload) (e : GoError) (h : c.writeResult 0 = some e) :
    c.Write p = ({ c with writes := c.writes.tail }, some e) := by
  obtain ⟨ra, rd, ws, wr, cl⟩ := c
  cases ws with
  | nil => simp [Conn.writeResult] at h
  | cons w ws =>
    cases w with
    | none => simp [Conn.writeResult] at h
    | some e1 =>
      simp only [Conn.writeResult, List.getElem?_cons_zero, Option.getD_some,
        Option.some.injEq] at h
      subst h
      rfl

theorem Conn.writeResult_afterResponse (c : Conn) (request : Str) :
    (c.afterResponse request).writeResult 0 = c.writeResult 1 := by
  obtain ⟨ra, rd, ws, wr, cl⟩ := c
  cases ws with
  | nil => rfl
  | cons w ws => simp [Conn.writeResult, Conn.afterResponse]

/-! ### The handshake -/

theorem CachePeers_loop_some :
    ∀ (peers : List Str) (hc : HostCache), ∃ hc1, Servent.CachePeers.loop peers hc = some hc1 := by
  intro peers
  induction peers with
  | nil => intro hc; exact ⟨hc, rfl⟩
  | cons a rest ih =>
    intro hc
    unfold Servent.CachePeers.loop
    cases hs : Split a " ".toList with
    | nil => exact absurd hs (splitAux_ne_nil _ _ _ _)
    | cons x xs => exact ih _

theorem Servent.cacheHeader_some (h : HeaderMap) (key : Str) (s : Servent) (ρ : RangeOrder)
    (d : Disk) : ∃ s1 d1, Servent.cacheHeader h key s ρ d = some (s1, d1) := by
  unfold Servent.cacheHeader
  cases h key with
  | none => exact ⟨s, d, rfl⟩
  | some v =>
    obtain ⟨hc1, h1⟩ := CachePeers_loop_some (Split v ",".toList) s.Hostcache
    simp only [Servent.CachePeers, h1]
    exact ⟨_, _, rfl⟩

/-- What `Handshake` returns once the request is written and a non-empty
response is read and parsed: the error built from the `Title` entry when the
status gate fails, else the result of writing the acknowledgment. -/
theorem Servent.Handshake_parsed (s : Servent) (conn : Conn) (ρ : RangeOrder) (d : Disk)
    (h : HeaderMap) (hw : conn.writeResult 0 = none) (hbuf : conn.response ≠ [])
    (hp : ParseHeaders conn.response = some h) :
    ∃ s2 d2, s.Handshake conn ρ d = some
      (if ¬ Contains (h.get "Title".toList) "200".toList = true ∨
          ¬ Contains (h.get "Title".toList) "GNUTELLA/0.6".toList = true then
        ⟨s2, conn.afterResponse Servent.connectRequest, d2,
          some (errors_New (h.get "Title".toList))⟩
      else
        ⟨s2, ((conn.afterResponse Servent.connectRequest).Write
            (.text Servent.acceptPayload)).1, d2,
          ((conn.afterResponse Servent.connectRequest).Write (.text Servent.acceptPayload)).2⟩) := by
  obtain ⟨s1, d1, h1⟩ := Servent.cacheHeader_some h "X-Try-Ultrapeers".toList s ρ d
  obtain ⟨s2, d2, h2⟩ := Servent.cacheHeader_some h "X-Try".toList s1 ρ d1
  refine ⟨s2, d2, ?_⟩
  unfold Conn.response at hbuf hp
  have hlen : ¬ (readLoop conn.reads).1.length = 0 := by
    intro e
    exact hbuf (List.length_eq_zero.1 e)
  unfold Servent.Handshake
  rw [Conn.Write_ok conn _ hw]
  simp only [hlen, if_false, hp, h1, h2]
  split
  · rfl
  · unfold Conn.afterResponse
    cases hwr : Conn.Write _ (Payload.text Servent.acceptPayload) with
    | mk c3 e3 =>
      cases e3 <;> rfl

/-- C7, as the code has it: the request being written and a non-empty response
read and parsed into `h`, `Handshake` returns.  When the `Title` entry lacks
`200` or lacks `GNUTELLA/0.6`, the error returned is `errors.New` of the
`Title` entry and only the request has been written.  When the `Title` entry
has both, the acknowledgment is handed to `Write`: if that write succeeds the
acknowledgment is written and `Handshake` returns nil, and if it fails
`Handshake` returns the error of the write. -/
theorem Servent.Handshake_status_gate (s : Servent) (conn : Conn) (ρ : RangeOrder) (d : Disk)
    (h : HeaderMap) (hw : conn.writeResult 0 = none) (hbuf : conn.response ≠ [])
    (hp : ParseHeaders conn.response = some h) :
    ∃ out, s.Handshake conn ρ d = some out ∧
      ((¬ Contains (h.get "Title".toList) "200".toList = true ∨
          ¬ Contains (h.get "Title".toList) "GNUTELLA/0.6".toList = true) →
        out.err = some (errors_New (h.get "Title".toList)) ∧
        out.conn.written = conn.written ++ [.text Servent.connectRequest]) ∧
      ((Contains (h.get "Title".toList) "200".toList = true ∧
          Contains (h.get "Title".toList) "GNUTELLA/0.6".toList = true) →
        (conn.writeResult 1 = none →
          out.err = none ∧
          out.conn.written = conn.written ++
            [.text Servent.connectRequest, .text Servent.acceptPayload]) ∧
        (∀ e, conn.writeResult 1 = some e →
          out.err = some e ∧
          out.conn.written = conn.written ++ [.text Servent.connectRequest])) := by
  obtain ⟨s2, d2, hs⟩ := Servent.Handshake_parsed s conn ρ d h hw hbuf hp
  refine ⟨_, hs, ?_, ?_⟩
  · intro hbad
    rw [if_pos hbad]
    exact ⟨rfl, rfl⟩
  · intro hgood
    have hnb : ¬ (¬ Contains (h.get "Title".toList) "200".toList = true ∨
        ¬ Contains (h.get "Title".toList) "GNUTELLA/0.6".toList = true) := by
      rintro (hb | hb)
      · exact hb hgood.1
      · exact hb hgood.2
    rw [if_neg hnb]
    constructor
    · intro h1
      rw [Conn.Write_ok _ _ ((Conn.writeResult_afterResponse conn _).trans h1)]
      exact ⟨rfl, by simp [Conn.afterResponse]⟩
    · intro e h1
      rw [Conn.Write_err _ _ e ((Conn.writeResult_afterResponse conn _).trans h1)]
      exact ⟨rfl, rfl⟩

/-- Witness of C7: a response without the protocol token. -/
theorem Servent.Handshake_status_gate_witness :
    ∃ out, (⟨[], PORT, HostCache.empty, none⟩ : Servent).Handshake
        ⟨"10.0.0.1:6346".toList, [("HTTP/1.1 200 OK\r\n\r\n".toList, none)], [], [], false⟩ id
        ⟨some [], none, none⟩ = some out ∧
      out.err = some (errors_New "HTTP/1.1 200 OK".toList) ∧
      out.conn.written = [.text Servent.connectRequest] :=
  match Servent.Handshake_status_gate ⟨[], PORT, HostCache.empty, none⟩
      ⟨"10.0.0.1:6346".toList, [("HTTP/1.1 200 OK\r\n\r\n".toList, none)], [], [], false⟩ id
      ⟨some [], none, none⟩
      (HeaderMap.set (fun _ => none) "Title".toList "HTTP/1.1 200 OK".toList)
      (by decide) (by decide) rfl with
  | ⟨out, h1, h2, _⟩ => ⟨out, h1, h2 (Or.inr (by decide))⟩

/-- C7 fails when the write of the acknowledgment fails: the response
`GNUTELLA/0.6 200 OK` passes the status gate, yet `Handshake` returns the
error of the write and the acknowledgment is not written. -/
theorem Servent.Handshake_status_gate_counterexample :
    (ParseHeaders "GNUTELLA/0.6 200 OK\r\n\r\n".toList).map (fun m => m.get "Title".toList) =
      some "GNUTELLA/0.6 200 OK".toList ∧
    ((⟨[], PORT, HostCache.empty, none⟩ : Servent).Handshake
        ⟨"10.0.0.1:6346".toList, [("GNUTELLA/0.6 200 OK\r\n\r\n".toList, none)],
          [none, some ⟨"*net.OpError".toList, "broken pipe".toList⟩], [], false⟩ id
        ⟨some [], none, none⟩).map (fun out => (out.err, out.conn.written)) =
      some (some ⟨"*net.OpError".toList, "broken pipe".toList⟩,
        [.text Servent.connectRequest]) := by
  refine ⟨by decide, by decide⟩

/-- The method `Servent.Handshake` reads no role header.  For every response,
read after the request was written and parsed into `h`, whose `Title` entry
contains `200` and `GNUTELLA/0.6` and whose role headers show a leaf-only peer
(neither `X-Hub: True` nor `X-Ultrapeer: True`), `Handshake` writes the
acknowledgment and, that write succeeding, returns nil. -/
theorem Servent.Handshake_accepts_leaf (s : Servent) (conn : Conn) (ρ : RangeOrder) (d : Disk)
    (h : HeaderMap) (hw : conn.writeResult 0 = none) (hack : conn.writeResult 1 = none)
    (hbuf : conn.response ≠ []) (hp : ParseHeaders conn.response = some h)
    (hcode : Contains (h.get "Title".toList) "200".toList = true)
    (hproto : Contains (h.get "Title".toList) "GNUTELLA/0.6".toList = true)
    (_hleaf : h "X-Hub".toList ≠ some "True".toList ∧ h "X-Ultrapeer".toList ≠ some "True".toList) :
    ∃ out, s.Handshake conn ρ d = some out ∧ out.err = none ∧
      out.conn.written = conn.written ++
        [.text Servent.connectRequest, .text Servent.acceptPayload] := by
  obtain ⟨s2, d2, hs⟩ := Servent.Handshake_parsed s conn ρ d h hw hbuf hp
  have hnb : ¬ (¬ Contains (h.get "Title".toList) "200".toList = true ∨
      ¬ Contains (h.get "Title".toList) "GNUTELLA/0.6".toList = true) := by
    rintro (hb | hb)
    · exact hb hcode
    · exact hb hproto
  rw [if_neg hnb, Conn.Write_ok _ _ ((Conn.writeResult_afterResponse conn _).trans hack)] at hs
  exact ⟨_, hs, rfl, by simp [Conn.afterResponse]⟩

/-- The response `GNUTELLA/0.6 200 OK` with `X-Ultrapeer: False` is one such
response. -/
theorem Servent.Handshake_accepts_leaf_witness :
    ∃ out, (⟨[], PORT, HostCache.empty, none⟩ : Servent).Handshake
        ⟨"10.0.0.1:6346".toList,
          [("GNUTELLA/0.6 200 OK\r\nX-Ultrapeer: False\r\n\r\n".toList, none)], [], [], false⟩ id
        ⟨some [], none, none⟩ = some out ∧
      out.err = none ∧
      out.conn.written = [] ++ [.text Servent.connectRequest, .text Servent.acceptPayload] :=
  Servent.Handshake_accepts_leaf ⟨[], PORT, HostCache.empty, none⟩
    ⟨"10.0.0.1:6346".toList,
      [("GNUTELLA/0.6 200 OK\r\nX-Ultrapeer: False\r\n\r\n".toList, none)], [], [], false⟩ id
    ⟨some [], none, none⟩
    ((ParseHeaders "GNUTELLA/0.6 200 OK\r\nX-Ultrapeer: False\r\n\r\n".toList).get (by decide))
    (by decide) (by decide) (by decide) (Option.some_get _).symm (by decide) (by decide)
    ⟨by decide, by decide⟩

/-! ### The gate of `Peer.Connect` -/

theorem Peer.cacheHeader_total (h : HeaderMap) (key : Str) (p : Peer) (ρ : RangeOrder)
    (d : Disk) : ∃ p1 d1, Peer.cacheHeader h key p ρ d = some (p1, d1) := by
  unfold Peer.cacheHeader
  cases h key with
  | none => exact ⟨p, d, rfl⟩
  | some v =>
    obtain ⟨hc1, h1⟩ := CachePeers_loop_some (Split v ",".toList) p.Hostcache
    simp only [Peer.CachePeers, h1]
    exact ⟨_, _, rfl⟩

theorem Peer.hubFound_iff (h : HeaderMap) :
    Peer.hubFound h = true ↔
      (h "X-Hub".toList = some "True".toList ∨ h "X-Ultrapeer".toList = some "True".toList) := by
  unfold Peer.hubFound
  cases h1 : h "X-Hub".toList with
  | none =>
    cases h2 : h "X-Ultrapeer".toList with
    | none => simp
    | some u => by_cases hu : u = "True".toList <;> simp_all
  | some x =>
    by_cases hx : x = "True".toList
    · cases h2 : h "X-Ultrapeer".toList <;> simp_all
    · cases h2 : h "X-Ultrapeer".toList with
      | none => simp_all
      | some u => by_cases hu : u = "True".toList <;> simp_all

theorem Peer.validate_eq_none_iff (h : HeaderMap) :
    Peer.Connect.validate h = none ↔
      (Contains (h.get "Title".toList) "200".toList = true ∧
       h.get "Content-Type".toList = Peer.G2_MIME ∧
       h.get "Accept".toList = Peer.G2_MIME ∧
       (h "X-Hub".toList = some "True".toList ∨ h "X-Ultrapeer".toList = some "True".toList)) := by
  rw [← Peer.hubFound_iff]
  unfold Peer.Connect.validate
  by_cases h1 : Contains (h.get "Title".toList) "200".toList = true
  · rw [if_neg (not_not_intro h1)]
    by_cases h2 : h.get "Content-Type".toList = Peer.G2_MIME
    · rw [if_neg (not_not_intro h2)]
      by_cases h3 : h.get "Accept".toList = Peer.G2_MIME
      · rw [if_neg (not_not_intro h3)]
        by_cases h4 : Peer.hubFound h = true
        · rw [if_neg (not_not_intro h4)]
          exact ⟨fun _ => ⟨h1, h2, h3, h4⟩, fun _ => rfl⟩
        · rw [if_pos h4]
          exact ⟨fun e => Option.noConfusion e, fun e => absurd e.2.2.2 h4⟩
      · rw [if_pos h3]
        exact ⟨fun e => Option.noConfusion e, fun e => absurd e.2.2.1 h3⟩
    · rw [if_pos h2]
      exact ⟨fun e => Option.noConfusion e, fun e => absurd e.2.1 h2⟩
  · rw [if_pos h1]
    exact ⟨fun e => Option.noConfusion e, fun e => absurd e.1 h1⟩

/-- What `Connect` returns once the request is written and a non-empty response
is read and parsed. -/
theorem Peer.Connect_parsed (p : Peer) (conn : Conn) (ρ : RangeOrder) (d : Disk)
    (h : HeaderMap) (hw : conn.writeResult 0 = none) (hbuf : conn.response ≠ [])
    (hp : ParseHeaders conn.response = some h) :
    ∃ p2 d2, p.Connect conn ρ d = some
      (match Peer.Connect.validate h with
        | some err => ⟨p2, conn.afterResponse (Peer.connectRequest conn), d2, some err⟩
        | none =>
          ⟨p2, ((conn.afterResponse (Peer.connectRequest conn)).Write
              (.text Peer.acceptPayload)).1, d2,
            ((conn.afterResponse (Peer.connectRequest conn)).Write
              (.text Peer.acceptPayload)).2⟩) := by
  obtain ⟨p1, d1, h1⟩ := Peer.cacheHeader_total h "X-Try-Ultrapeers".toList p ρ d
  obtain ⟨p2, d2, h2⟩ := Peer.cacheHeader_total h "X-Try-Hubs".toList p1 ρ d1
  refine ⟨p2, d2, ?_⟩
  unfold Conn.response at hbuf hp
  have hlen : ¬ (readLoop conn.reads).1.length = 0 := by
    intro e
    exact hbuf (List.length_eq_zero.1 e)
  unfold Peer.Connect
  simp only [GetNetIP]
  rw [Conn.Write_ok conn _ hw]
  simp only [hlen, if_false, hp, h1, h2]
  cases Peer.Connect.validate h with
  | some err => rfl
  | none =>
    dsimp only
    unfold Conn.afterResponse
    cases hwr : Conn.Write _ (Payload.text Peer.acceptPayload) with
    | mk c3 e3 =>
      cases e3 <;> rfl

/-- What `Connect` does once the request is written and a non-empty response
is read that `ParseHeaders` cannot parse: it panics. -/
theorem Peer.Connect_unparsed (p : Peer) (conn : Conn) (ρ : RangeOrder) (d : Disk)
    (hw : conn.writeResult 0 = none) (hbuf : conn.response ≠ [])
    (hp : ParseHeaders conn.response = none) : p.Connect conn ρ d = none := by
  unfold Conn.response at hbuf hp
  have hlen : ¬ (readLoop conn.reads).1.length = 0 := by
    intro e
    exact hbuf (List.length_eq_zero.1 e)
  unfold Peer.Connect
  simp only [GetNetIP]
  rw [Conn.Write_ok conn _ hw]
  simp only [hlen, if_false, hp]

/-- C9, as the code has it: writes succeeding and a non-empty response being
read, there are two cases.  When `ParseHeaders` parses the response into a map
`h`, `Connect` returns nil exactly when the `Title` entry contains `200`, the
`Content-Type` entry and the `Accept` entry equal `application/x-gnutella2`,
and `X-Hub` or `X-Ultrapeer` is `True`; it then has written the
acknowledgment, and in every other case it returns an error and has written
the request only.  When `ParseHeaders` panics on the response, `Connect`
panics: it returns neither nil nor an error. -/
theorem Peer.Connect_gate (p : Peer) (conn : Conn) (ρ : RangeOrder) (d : Disk)
    (hw : conn.writeResult 0 = none) (hack : conn.writeResult 1 = none)
    (hbuf : conn.response ≠ []) :
    (∀ h, ParseHeaders conn.response = some h →
      ∃ out, p.Connect conn ρ d = some out ∧
        (out.err = none ↔
          (Contains (h.get "Title".toList) "200".toList = true ∧
           h.get "Content-Type".toList = "application/x-gnutella2".toList ∧
           h.get "Accept".toList = "application/x-gnutella2".toList ∧
           (h "X-Hub".toList = some "True".toList ∨
            h "X-Ultrapeer".toList = some "True".toList))) ∧
        (out.err = none → out.conn.written = conn.written ++
          [.text (Peer.connectRequest conn), .text Peer.acceptPayload]) ∧
        (out.err ≠ none →
          out.conn.written = conn.written ++ [.text (Peer.connectRequest conn)])) ∧
    (ParseHeaders conn.response = none → p.Connect conn ρ d = none) := by
  refine ⟨fun h hp => ?_, fun hp => Peer.Connect_unparsed p conn ρ d hw hbuf hp⟩
  obtain ⟨p2, d2, hs⟩ := Peer.Connect_parsed p conn ρ d h hw hbuf hp
  have hv := Peer.validate_eq_none_iff h
  cases hval : Peer.Connect.validate h with
  | some err =>
    rw [hval] at hs hv
    refine ⟨_, hs, ?_, ?_, ?_⟩
    · constructor
      · intro e
        exact Option.noConfusion e
      · intro e
        exact Option.noConfusion (hv.2 e)
    · intro e
      exact Option.noConfusion e
    · intro _
      rfl
  | none =>
    rw [hval] at hs hv
    rw [Conn.Write_ok _ _ ((Conn.writeResult_afterResponse conn _).trans hack)] at hs
    refine ⟨_, hs, ?_, ?_, ?_⟩
    · exact ⟨fun _ => hv.1 rfl, fun _ => rfl⟩
    · intro _
      simp [Conn.afterResponse]
    · intro e
      exact absurd rfl e

/-- Witness of C9: a hub that answers with the Gnutella2 content type. -/
theorem Peer.Connect_gate_witness :
    ∃ out, (⟨[], PORT, HostCache.empty, none⟩ : Peer).Connect
        ⟨"10.0.0.1:6346".toList,
          [("GNUTELLA/0.6 200 OK\r\nContent-Type: application/x-gnutella2\r\nAccept: application/x-gnutella2\r\nX-Hub: True\r\n\r\n".toList,
            none)], [], [], false⟩ id ⟨some [], none, none⟩ = some out ∧
      out.err = none :=
  match (Peer.Connect_gate ⟨[], PORT, HostCache.empty, none⟩
      ⟨"10.0.0.1:6346".toList,
        [("GNUTELLA/0.6 200 OK\r\nContent-Type: application/x-gnutella2\r\nAccept: application/x-gnutella2\r\nX-Hub: True\r\n\r\n".toList,
          none)], [], [], false⟩ id ⟨some [], none, none⟩
      (by decide) (by decide) (by decide)).1
      ((ParseHeaders
        "GNUTELLA/0.6 200 OK\r\nContent-Type: application/x-gnutella2\r\nAccept: application/x-gnutella2\r\nX-Hub: True\r\n\r\n".toList).get
        (by decide))
      (Option.some_get _).symm with
  | ⟨out, h1, h2, _⟩ => ⟨out, h1, h2.2 ⟨by decide, by decide, by decide, Or.inl (by decide)⟩⟩

/-- C9 fails on a response that `ParseHeaders` cannot parse.  The response
`\r\n` is not empty, its writes succeed, and `Connect` panics on the empty
line (`h[0]`); the response of a hub that passes every test of the gate and
carries the line `X-Foo:` makes `Connect` panic on `h_frag[1]`.  In both cases
`Connect` returns neither nil nor an error. -/
theorem Peer.Connect_gate_counterexample :
    (⟨"10.0.0.1:6346".toList, [("\r\n".toList, none)], [], [], false⟩ : Conn).response =
      "\r\n".toList ∧
    "\r\n".toList ≠ ([] : Str) ∧
    (ParseHeaders "\r\n".toList).isNone = true ∧
    ((⟨[], PORT, HostCache.empty, none⟩ : Peer).Connect
        ⟨"10.0.0.1:6346".toList, [("\r\n".toList, none)], [], [], false⟩ id
        ⟨some [], none, none⟩).isNone = true ∧
    (ParseHeaders
      "GNUTELLA/0.6 200 OK\r\nContent-Type: application/x-gnutella2\r\nAccept: application/x-gnutella2\r\nX-Hub: True\r\nX-Foo:\r\n\r\n".toList).isNone =
      true ∧
    ((⟨[], PORT, HostCache.empty, none⟩ : Peer).Connect
        ⟨"10.0.0.1:6346".toList,
          [("GNUTELLA/0.6 200 OK\r\nContent-Type: application/x-gnutella2\r\nAccept: application/x-gnutella2\r\nX-Hub: True\r\nX-Foo:\r\n\r\n".toList,
            none)], [], [], false⟩ id ⟨some [], none, none⟩).isNone = true := by
  refine ⟨by decide, by decide, by decide, by decide, by decide, by decide⟩

/-! ### The role gate that `Servent.Handshake` lacks -/

/-- C8 on the code: on a connection whose writes succeed and whose peer answers
`GNUTELLA/0.6 200 OK` with the role header `X-Ultrapeer: False`, the response
parses into a map with that status line and no routing role, and `Handshake`
writes the acknowledgment and returns nil: the leaf-only peer is accepted,
although the comment before that write reads "accept the hub".  The same
leaf-only response with the Gnutella2 content types is accepted by
`Servent.Handshake` as well, and rejected by `Peer.Connect` with the error
`Peer not a hub or ultra-peer`, no acknowledgment written. -/
theorem Handshake_leaf_accepted :
    (ParseHeaders "GNUTELLA/0.6 200 OK\r\nX-Ultrapeer: False\r\n\r\n".toList).map
      (fun m => (m.get "Title".toList, m "X-Hub".toList, m "X-Ultrapeer".toList)) =
      some ("GNUTELLA/0.6 200 OK".toList, none, some "False".toList) ∧
    ((⟨[], PORT, HostCache.empty, none⟩ : Servent).Handshake
        ⟨"10.0.0.1:6346".toList,
          [("GNUTELLA/0.6 200 OK\r\nX-Ultrapeer: False\r\n\r\n".toList, none)], [], [], false⟩ id
        ⟨some [], none, none⟩).map (fun out => (out.err, out.conn.written)) =
      some (none, [.text Servent.connectRequest, .text Servent.acceptPayload]) ∧
    ((⟨[], PORT, HostCache.empty, none⟩ : Servent).Handshake
        ⟨"10.0.0.1:6346".toList,
          [("GNUTELLA/0.6 200 OK\r\nContent-Type: application/x-gnutella2\r\nAccept: application/x-gnutella2\r\nX-Ultrapeer: False\r\n\r\n".toList,
            none)], [], [], false⟩ id
        ⟨some [], none, none⟩).map (fun out => (out.err, out.conn.written)) =
      some (none, [.text Servent.connectRequest, .text Servent.acceptPayload]) ∧
    ((⟨[], PORT, HostCache.empty, none⟩ : Peer).Connect
        ⟨"10.0.0.1:6346".toList,
          [("GNUTELLA/0.6 200 OK\r\nContent-Type: application/x-gnutella2\r\nAccept: application/x-gnutella2\r\nX-Ultrapeer: False\r\n\r\n".toList,
            none)], [], [], false⟩ id
        ⟨some [], none, none⟩).map (fun out => (out.err, out.conn.written.length)) =
      some (some ⟨"*errors.errorString".toList, "Peer not a hub or ultra-peer".toList⟩, 1) := by
  refine ⟨by decide, by decide, by decide, by decide⟩

/-! ### Bootstrap -/

/-- When every dial fails, the loop of `Bootstrap` deletes every address of the
snapshot and touches nothing else of the servent. -/
theorem Bootstrap_loop_all_fail (dial : Str → Except GoError Conn) (ρ : RangeOrder) :
    ∀ (items : List Str) (s : Servent) (d : Disk) (dialed : List Str) (closed : List Conn),
      (∀ a ∈ items, ∃ e, dial a = .error e) →
      ∃ s1 d1, Servent.Bootstrap.loop dial ρ items s d dialed closed =
          some (s1, d1, dialed ++ items, closed) ∧
        s1.Peer = s.Peer ∧
        s1.Hostcache.set = s.Hostcache.set.filter (fun a => a ∉ items) := by
  intro items
  induction items with
  | nil =>
    intro s d dialed closed _
    exact ⟨s, d, by simp [Servent.Bootstrap.loop], rfl, by simp⟩
  | cons a rest ih =>
    intro s d dialed closed hfail
    obtain ⟨e, he⟩ := hfail a (List.mem_cons_self _ _)
    obtain ⟨s1, d1, h1, h2, h3⟩ :=
      ih { s with Hostcache := (s.Hostcache.Delete a ρ d).1 } (s.Hostcache.Delete a ρ d).2
        (dialed ++ [a]) closed (fun b hb => hfail b (List.mem_cons_of_mem _ hb))
    refine ⟨s1, d1, ?_, h2, ?_⟩
    · simp only [Servent.Bootstrap.loop, he]
      rw [h1]
      simp
    · rw [h3]
      simp only [HostCache.Delete, List.filter_filter]
      apply List.filter_congr
      intro x _
      by_cases hx : x = a <;> simp [hx]

/-- C10: for every cache (the empty one included) and a dialer that fails for
every address of the cache, no peer link being held beforehand, `Bootstrap`
returns the error `No peer found.`, holds no peer link afterwards and leaves
the cache empty; every address of the cache has been dialed once. -/
theorem Servent.Bootstrap_exhaustion (s : Servent) (dial : Str → Except GoError Conn)
    (ρ : RangeOrder) (d : Disk) (hρ : ρ.Valid) (hpeer : s.Peer = none)
    (hfail : ∀ a ∈ s.Hostcache.set, ∃ e, dial a = .error e) :
    ∃ out, s.Bootstrap dial ρ d = some out ∧
      out.err = some (errors_New "No peer found.".toList) ∧
      out.servent.Peer = none ∧
      out.servent.Hostcache.set = [] ∧
      out.dialed.Perm s.Hostcache.set := by
  have hp : (s.Hostcache.Items ρ).Perm s.Hostcache.set := hρ _
  obtain ⟨s1, d1, h1, h2, h3⟩ := Bootstrap_loop_all_fail dial ρ (s.Hostcache.Items ρ) s d [] []
    (fun a ha => hfail a (hp.mem_iff.1 ha))
  have hnone : s1.Peer = none := h2.trans hpeer
  refine ⟨⟨s1, d1, [] ++ s.Hostcache.Items ρ, [], some (errors_New "No peer found.".toList)⟩,
    ?_, rfl, hnone, ?_, by simpa using hp⟩
  · unfold Servent.Bootstrap
    rw [h1]
    simp only [hnone]
  · rw [h3, List.filter_eq_nil_iff]
    intro x hx
    simpa using hp.mem_iff.2 hx

/-- Witness of C10: two addresses, none of which can be dialed. -/
theorem Servent.Bootstrap_exhaustion_witness :
    ∃ out, (⟨[], PORT, ⟨["10.0.0.1:6346".toList, "10.0.0.2:6346".toList]⟩, none⟩ : Servent).Bootstrap
        (fun _ => .error ⟨"*net.OpError".toList, "i/o timeout".toList⟩) List.reverse
        ⟨some "10.0.0.1:6346\n10.0.0.2:6346\n".toList, none, none⟩ = some out ∧
      out.err = some (errors_New "No peer found.".toList) ∧
      out.servent.Peer = none ∧
      out.servent.Hostcache.set = [] ∧
      out.dialed.Perm ["10.0.0.1:6346".toList, "10.0.0.2:6346".toList] :=
  Servent.Bootstrap_exhaustion
    ⟨[], PORT, ⟨["10.0.0.1:6346".toList, "10.0.0.2:6346".toList]⟩, none⟩
    (fun _ => .error ⟨"*net.OpError".toList, "i/o timeout".toList⟩) List.reverse
    ⟨some "10.0.0.1:6346\n10.0.0.2:6346\n".toList, none, none⟩
    (fun l => List.reverse_perm l) rfl (fun _ _ => ⟨_, rfl⟩)

/-! ### Decoding a message -/

/-- A list of twenty-two elements, element by element. -/
theorem length_twentytwo {α : Type} (g : List α) (h : g.length = 22) :
    ∃ a0 a1 a2 a3 a4 a5 a6 a7 a8 a9 b0 b1 b2 b3 b4 b5 b6 b7 b8 b9 c0 c1,
      g = [a0, a1, a2, a3, a4, a5, a6, a7, a8, a9, b0, b1, b2, b3, b4, b5, b6, b7, b8, b9,
        c0, c1] := by
  match g, h with
  | [a0, a1, a2, a3, a4, a5, a6, a7, a8, a9, b0, b1, b2, b3, b4, b5, b6, b7, b8, b9, c0, c1], _ =>
    exact ⟨a0, a1, a2, a3, a4, a5, a6, a7, a8, a9, b0, b1, b2, b3, b4, b5, b6, b7, b8, b9,
      c0, c1, rfl⟩

/-- What `ParseMessage` returns on twenty-two bytes followed by more bytes. -/
theorem ParseMessage_cons (a0 a1 a2 a3 a4 a5 a6 a7 a8 a9 b0 b1 b2 b3 b4 b5 b6 b7 b8 b9 c0 c1 : Nat)
    (t : List Nat) :
    Servent.ParseMessage
        (a0 :: a1 :: a2 :: a3 :: a4 :: a5 :: a6 :: a7 :: a8 :: a9 :: b0 :: b1 :: b2 :: b3 :: b4 ::
          b5 :: b6 :: b7 :: b8 :: b9 :: c0 :: c1 :: t) =
      some ⟨some [a0, a1, a2, a3, a4, a5, a6, a7, a8, a9, b0, b1, b2, b3, b4, b5], b6, b7, b8,
        b9 + 256 * c0, if b9 + 256 * c0 > 0 then t else []⟩ := by
  by_cases hp : b9 + 256 * c0 > 0
  · simp [Servent.ParseMessage, slice, Uint16, uuid_Parse, hp]
  · simp [Servent.ParseMessage, slice, Uint16, uuid_Parse, hp]

/-- What `ParseMessage` returns on any input of at least twenty-two bytes. -/
theorem ParseMessage_eval (raw : List Nat) (h : 22 ≤ raw.length) :
    Servent.ParseMessage raw =
      some ⟨some (raw.take 16), raw.getD 16 0, raw.getD 17 0, raw.getD 18 0,
        raw.getD 19 0 + 256 * raw.getD 20 0,
        if raw.getD 19 0 + 256 * raw.getD 20 0 > 0 then raw.drop 22 else []⟩ := by
  have hlen : (raw.take 22).length = 22 := by simp [h]
  obtain ⟨a0, a1, a2, a3, a4, a5, a6, a7, a8, a9, b0, b1, b2, b3, b4, b5, b6, b7, b8, b9, c0, c1,
    hs⟩ := length_twentytwo _ hlen
  have hr : raw = raw.take 22 ++ raw.drop 22 := (List.take_append_drop 22 raw).symm
  rw [hs] at hr
  generalize raw.drop 22 = t at hr
  subst hr
  simp only [List.cons_append, List.nil_append, ParseMessage_cons]
  rfl

/-- An input of at least twenty-two bytes, as its first twenty-two bytes and
the rest. -/
theorem exists_header (raw : List Nat) (h : 22 ≤ raw.length) :
    ∃ a0 a1 a2 a3 a4 a5 a6 a7 a8 a9 b0 b1 b2 b3 b4 b5 b6 b7 b8 b9 c0 c1 t,
      raw = a0 :: a1 :: a2 :: a3 :: a4 :: a5 :: a6 :: a7 :: a8 :: a9 :: b0 :: b1 :: b2 :: b3 ::
        b4 :: b5 :: b6 :: b7 :: b8 :: b9 :: c0 :: c1 :: t := by
  have hlen : (raw.take 22).length = 22 := by simp [h]
  obtain ⟨a0, a1, a2, a3, a4, a5, a6, a7, a8, a9, b0, b1, b2, b3, b4, b5, b6, b7, b8, b9, c0, c1,
    hs⟩ := length_twentytwo _ hlen
  refine ⟨a0, a1, a2, a3, a4, a5, a6, a7, a8, a9, b0, b1, b2, b3, b4, b5, b6, b7, b8, b9, c0, c1,
    raw.drop 22, ?_⟩
  have hr : raw = raw.take 22 ++ raw.drop 22 := (List.take_append_drop 22 raw).symm
  rw [hs] at hr
  simpa using hr

/-- C17: for every input of at least twenty-two bytes, whatever its first
sixteen bytes are, `ParseMessage` returns a message (no index is out of range)
whose type, ttl and hops are the bytes at offsets 16, 17 and 18; its identifier
is not nil and holds the first sixteen bytes. -/
theorem ParseMessage_never_aborts (raw : List Nat) (h : 22 ≤ raw.length) :
    ∃ m, Servent.ParseMessage raw = some m ∧
      raw[16]? = some m.p_type ∧ raw[17]? = some m.ttl ∧ raw[18]? = some m.hops ∧
      m.GUID = some (raw.take 16) := by
  obtain ⟨a0, a1, a2, a3, a4, a5, a6, a7, a8, a9, b0, b1, b2, b3, b4, b5, b6, b7, b8, b9, c0, c1,
    t, rfl⟩ := exists_header raw h
  exact ⟨_, ParseMessage_cons _ _ _ _ _ _ _ _ _ _ _ _ _ _ _ _ _ _ _ _ _ _ _, rfl, rfl, rfl, rfl⟩

/-- Witness of C17: sixteen bytes 255 followed by a PONG header and two bytes. -/
theorem ParseMessage_never_aborts_witness :
    ∃ m, Servent.ParseMessage
        [255, 255, 255, 255, 255, 255, 255, 255, 255, 255, 255, 255, 255, 255, 255, 255,
          1, 4, 2, 2, 0, 0, 9, 8] = some m ∧
      [255, 255, 255, 255, 255, 255, 255, 255, 255, 255, 255, 255, 255, 255, 255, 255,
          1, 4, 2, 2, 0, 0, 9, 8][16]? = some m.p_type ∧
      [255, 255, 255, 255, 255, 255, 255, 255, 255, 255, 255, 255, 255, 255, 255, 255,
          1, 4, 2, 2, 0, 0, 9, 8][17]? = some m.ttl ∧
      [255, 255, 255, 255, 255, 255, 255, 255, 255, 255, 255, 255, 255, 255, 255, 255,
          1, 4, 2, 2, 0, 0, 9, 8][18]? = some m.hops ∧
      m.GUID = some (List.take 16
        [255, 255, 255, 255, 255, 255, 255, 255, 255, 255, 255, 255, 255, 255, 255, 255,
          1, 4, 2, 2, 0, 0, 9, 8]) :=
  ParseMessage_never_aborts
    [255, 255, 255, 255, 255, 255, 255, 255, 255, 255, 255, 255, 255, 255, 255, 255,
      1, 4, 2, 2, 0, 0, 9, 8] (by decide)

/-- C18: for every input of at least twenty-two bytes the declared length is
the byte at offset 19 plus 256 times the byte at offset 20, and the byte at
offset 21 is ignored: the input with any other value at offset 21 decodes to
the same message. -/
theorem ParseMessage_reserved_byte (raw : List Nat) (x : Nat) (h : 22 ≤ raw.length) :
    (∃ m b19 b20, Servent.ParseMessage raw = some m ∧ raw[19]? = some b19 ∧
      raw[20]? = some b20 ∧ m.p_len = b19 + 256 * b20) ∧
    Servent.ParseMessage (raw.set 21 x) = Servent.ParseMessage raw := by
  obtain ⟨a0, a1, a2, a3, a4, a5, a6, a7, a8, a9, b0, b1, b2, b3, b4, b5, b6, b7, b8, b9, c0, c1,
    t, rfl⟩ := exists_header raw h
  refine ⟨⟨_, b9, c0, ParseMessage_cons _ _ _ _ _ _ _ _ _ _ _ _ _ _ _ _ _ _ _ _ _ _ _, rfl, rfl,
    rfl⟩, ?_⟩
  simp only [List.set_cons_succ, List.set_cons_zero, ParseMessage_cons]

/-- Witness of C18: the reserved byte 0 replaced by 77. -/
theorem ParseMessage_reserved_byte_witness :
    (∃ m b19 b20, Servent.ParseMessage
        [1, 2, 3, 4, 5, 6, 7, 8, 9, 10, 11, 12, 13, 14, 15, 16, 1, 4, 2, 2, 1, 0, 9, 8] = some m ∧
      [1, 2, 3, 4, 5, 6, 7, 8, 9, 10, 11, 12, 13, 14, 15, 16, 1, 4, 2, 2, 1, 0, 9, 8][19]? =
        some b19 ∧
      [1, 2, 3, 4, 5, 6, 7, 8, 9, 10, 11, 12, 13, 14, 15, 16, 1, 4, 2, 2, 1, 0, 9, 8][20]? =
        some b20 ∧ m.p_len = b19 + 256 * b20) ∧
    Servent.ParseMessage
        (List.set [1, 2, 3, 4, 5, 6, 7, 8, 9, 10, 11, 12, 13, 14, 15, 16, 1, 4, 2, 2, 1, 0, 9, 8]
          21 77) =
      Servent.ParseMessage
        [1, 2, 3, 4, 5, 6, 7, 8, 9, 10, 11, 12, 13, 14, 15, 16, 1, 4, 2, 2, 1, 0, 9, 8] :=
  ParseMessage_reserved_byte
    [1, 2, 3, 4, 5, 6, 7, 8, 9, 10, 11, 12, 13, 14, 15, 16, 1, 4, 2, 2, 1, 0, 9, 8] 77 (by decide)

/-- C12, as the code has it: for every input of at least twenty-two bytes
`ParseMessage` returns a message; when the declared length is not zero its
payload is all the bytes from offset 22 on, whatever that length is, and when
the declared length is zero its payload is empty, whatever follows the header. -/
theorem ParseMessage_payload (raw : List Nat) (h : 22 ≤ raw.length) :
    ∃ m, Servent.ParseMessage raw = some m ∧
      (m.p_len > 0 → m.payload = raw.drop 22) ∧
      (m.p_len = 0 → m.payload = []) := by
  refine ⟨_, ParseMessage_eval raw h, ?_, ?_⟩
  · intro hp
    exact if_pos hp
  · intro hp
    exact if_neg (by
      show ¬ (raw.getD 19 0 + 256 * raw.getD 20 0 > 0)
      have : raw.getD 19 0 + 256 * raw.getD 20 0 = 0 := hp
      omega)

/-- Witness of C12: a header that declares one byte, followed by three bytes. -/
theorem ParseMessage_payload_witness :
    ∃ m, Servent.ParseMessage
        [1, 2, 3, 4, 5, 6, 7, 8, 9, 10, 11, 12, 13, 14, 15, 16, 1, 4, 2, 1, 0, 0, 9, 8, 7] =
        some m ∧
      (m.p_len > 0 → m.payload = List.drop 22
        [1, 2, 3, 4, 5, 6, 7, 8, 9, 10, 11, 12, 13, 14, 15, 16, 1, 4, 2, 1, 0, 0, 9, 8, 7]) ∧
      (m.p_len = 0 → m.payload = []) :=
  ParseMessage_payload
    [1, 2, 3, 4, 5, 6, 7, 8, 9, 10, 11, 12, 13, 14, 15, 16, 1, 4, 2, 1, 0, 0, 9, 8, 7] (by decide)

/-- C12 fails when the length field declares zero: the bytes 7 and 8 follow a
header with length 0, and the payload returned is empty. -/
theorem ParseMessage_payload_counterexample :
    Servent.ParseMessage
        [1, 2, 3, 4, 5, 6, 7, 8, 9, 10, 11, 12, 13, 14, 15, 16, 0, 5, 0, 0, 0, 0, 7, 8] =
      some ⟨some [1, 2, 3, 4, 5, 6, 7, 8, 9, 10, 11, 12, 13, 14, 15, 16], 0, 5, 0, 0, []⟩ ∧
    List.drop 22 [1, 2, 3, 4, 5, 6, 7, 8, 9, 10, 11, 12, 13, 14, 15, 16, 0, 5, 0, 0, 0, 0, 7, 8] =
      [7, 8] := by
  refine ⟨by decide, by decide⟩

/-- The header `Ping` writes is 22 bytes long (sixteen
bytes of identifier, one of type, one of TTL, one of hop count, three of
length field), so for every identifier the PING with its empty payload is 22
bytes; and `ParseMessage` takes the payload to start after a header of 22
bytes: on a header of 22 bytes that declares a length other than zero,
followed by any bytes, the payload is exactly the bytes that follow. -/
theorem header_is_22_bytes (s : Servent) (hdr rest : List Nat) (hg : s.GUID.length = 16)
    (hh : hdr.length = 22) :
    (∃ buf, s.pingBuf = some buf ∧ buf.length = 22) ∧
    (∃ m, Servent.ParseMessage (hdr ++ rest) = some m ∧ (m.p_len > 0 → m.payload = rest)) := by
  constructor
  · obtain ⟨a0, a1, a2, a3, a4, a5, a6, a7, a8, a9, b0, b1, b2, b3, b4, b5, hs⟩ :=
      length_sixteen s.GUID hg
    rw [Servent.pingBuf, hs]
    exact ⟨_, rfl, rfl⟩
  · obtain ⟨a0, a1, a2, a3, a4, a5, a6, a7, a8, a9, b0, b1, b2, b3, b4, b5, b6, b7, b8, b9, c0,
      c1, rfl⟩ := length_twentytwo hdr hh
    refine ⟨_, ParseMessage_cons _ _ _ _ _ _ _ _ _ _ _ _ _ _ _ _ _ _ _ _ _ _ rest, ?_⟩
    intro hp
    exact if_pos hp

/-- The identifier 1, ..., 16 and a header that declares one byte, followed
by the bytes 9 and 8, make one instance. -/
theorem header_is_22_bytes_witness :
    (∃ buf, (⟨[1, 2, 3, 4, 5, 6, 7, 8, 9, 10, 11, 12, 13, 14, 15, 16], PORT, HostCache.empty,
        none⟩ : Servent).pingBuf = some buf ∧ buf.length = 22) ∧
    (∃ m, Servent.ParseMessage
        ([1, 2, 3, 4, 5, 6, 7, 8, 9, 10, 11, 12, 13, 14, 15, 16, 1, 4, 2, 1, 0, 0] ++ [9, 8]) =
        some m ∧ (m.p_len > 0 → m.payload = [9, 8])) :=
  header_is_22_bytes
    ⟨[1, 2, 3, 4, 5, 6, 7, 8, 9, 10, 11, 12, 13, 14, 15, 16], PORT, HostCache.empty, none⟩
    [1, 2, 3, 4, 5, 6, 7, 8, 9, 10, 11, 12, 13, 14, 15, 16, 1, 4, 2, 1, 0, 0] [9, 8]
    (by decide) (by decide)

/-- C13 on the code: the PING that `Ping` builds for the identifier 1, ..., 16
is 22 bytes long, not the 23 of the header that the claim and the comment
"4kb payload + 23b header" state; and in a message whose header declares one
byte `ParseMessage` takes the payload to begin with the byte at offset 22
(here 9), not with the one at offset 23. -/
theorem ping_is_22_bytes :
    ((⟨[1, 2, 3, 4, 5, 6, 7, 8, 9, 10, 11, 12, 13, 14, 15, 16], PORT, HostCache.empty, none⟩ :
        Servent).pingBuf).map List.length = some 22 ∧
    (Servent.ParseMessage
        [1, 2, 3, 4, 5, 6, 7, 8, 9, 10, 11, 12, 13, 14, 15, 16, 1, 4, 2, 1, 0, 0, 9, 8]).map
        (fun m => m.payload) = some [9, 8] ∧
    List.drop 23 [1, 2, 3, 4, 5, 6, 7, 8, 9, 10, 11, 12, 13, 14, 15, 16, 1, 4, 2, 1, 0, 0, 9, 8] =
      [8] := by
  refine ⟨by decide, by decide, by decide⟩

/-! ### Ping -/

/-- `Ping` never returns nil: it panics, or it returns an error. -/
theorem Ping_panics_or_fails (s : Servent) :
    s.Ping = none ∨ ∃ s1 e, s.Ping = some (s1, some e) := by
  unfold Servent.Ping
  cases s.pingBuf with
  | none => exact Or.inl rfl
  | some buf =>
    cases s.Peer with
    | none => exact Or.inl rfl
    | some peer =>
      right
      dsimp only
      cases peer.Write (Payload.bytes buf) with
      | mk c1 e1 =>
        cases e1 with
        | some err => exact ⟨_, _, rfl⟩
        | none =>
          dsimp only
          cases readLoop c1.reads with
          | mk b r =>
            cases r with
            | mk left err => exact ⟨_, _, rfl⟩

/-- C14 on the code: on a connection whose write succeeds and whose peer sends
the four bytes `PONG` and closes the stream, `Ping` writes the 22 bytes of the
PING and returns the error `Unable to read PONG: ...` built from `io.EOF`; it
does not return nil. -/
theorem Ping_returns_error :
    ((⟨[1, 2, 3, 4, 5, 6, 7, 8, 9, 10, 11, 12, 13, 14, 15, 16], PORT, HostCache.empty,
        some ⟨"10.0.0.1:6346".toList, [("PONG".toList, none)], [], [], false⟩⟩ : Servent).Ping).map
      (fun r => (r.2, r.1.Peer.map (fun c => c.written))) =
    some (some (errors_New "Unable to read PONG: %!(EXTRA *errors.errorString=EOF)".toList),
      some [.bytes [1, 2, 3, 4, 5, 6, 7, 8, 9, 10, 11, 12, 13, 14, 15, 16, 0, 5, 0, 0, 0, 0]]) := by
  decide

/-! ### Peer lists -/

/-- The first fragment of a split at spaces is the text before the first space. -/
theorem splitAux_space_head :
    ∀ (e cur : Str), ∃ rest,
      splitAux " ".toList e cur 0 = (cur.reverse ++ beforeFirstSpace e) :: rest := by
  intro e
  induction e with
  | nil => intro cur; exact ⟨[], by simp [splitAux, beforeFirstSpace]⟩
  | cons c t ih =>
    intro cur
    by_cases hc : c = ' '
    · subst hc
      refine ⟨splitAux " ".toList t [] 0, ?_⟩
      simp [splitAux, beforeFirstSpace, List.isPrefixOf, String.toList]
    · obtain ⟨rest, hr⟩ := ih (c :: cur)
      refine ⟨rest, ?_⟩
      have hp : List.isPrefixOf " ".toList (c :: t) = false := by
        simp [List.isPrefixOf, String.toList, Ne.symm hc]
      rw [splitAux]
      simp only [hp, Bool.false_eq_true, if_false]
      rw [hr]
      simp [beforeFirstSpace, List.takeWhile_cons, hc]

/-- The loop of `CachePeers` adds the address token of every entry. -/
theorem CachePeers_loop_eq :
    ∀ (peers : List Str) (hc : HostCache),
      Servent.CachePeers.loop peers hc =
        some (peers.foldl (fun c e => (c.Add (beforeFirstSpace e)).1) hc) := by
  intro peers
  induction peers with
  | nil => intro hc; rfl
  | cons e rest ih =>
    intro hc
    obtain ⟨r, hr⟩ := splitAux_space_head e []
    have hs : Split e " ".toList = beforeFirstSpace e :: r := by
      simpa [Split] using hr
    simp only [Servent.CachePeers.loop, hs, List.foldl_cons]
    exact ih _

theorem mem_foldl_Add (f : Str → Str) :
    ∀ (peers : List Str) (hc : HostCache) (b : Str),
      b ∈ (peers.foldl (fun c e => (c.Add (f e)).1) hc).set ↔
        b ∈ hc.set ∨ b ∈ peers.map f := by
  intro peers
  induction peers with
  | nil => intro hc b; simp
  | cons e rest ih =>
    intro hc b
    rw [List.foldl_cons, ih, HostCache.mem_Add]
    simp only [List.map_cons, List.mem_cons]
    tauto

/-! ### Loading a file line by line -/

theorem byteLen_cons (c : Char) (l : Str) : byteLen (c :: l) = c.utf8Size + byteLen l := by
  simp [byteLen]

theorem byteLen_append (a b : Str) : byteLen (a ++ b) = byteLen a + byteLen b := by
  simp [byteLen]

/-- The lines of a content, by the first cut. -/
theorem fileLinesAux_cutLine :
    ∀ (s cur : Str),
      fileLinesAux cur s =
        if (cutLine s).2.1 = true then
          dropCR (cur.reverse ++ (cutLine s).1) :: fileLinesAux [] (cutLine s).2.2
        else if cur.reverse ++ (cutLine s).1 = [] then []
        else [cur.reverse ++ (cutLine s).1] := by
  intro s
  induction s with
  | nil =>
    intro cur
    simp [fileLinesAux, cutLine]
  | cons c t ih =>
    intro cur
    by_cases hc : c = '\n'
    · simp [fileLinesAux, cutLine, hc]
    · rw [fileLinesAux, if_neg hc, ih (c :: cur)]
      simp [cutLine, hc]

/-- The length test of a content, by the first cut. -/
theorem shortLinesAux_cutLine :
    ∀ (s : Str) (n : Nat),
      shortLinesAux n s =
        (decide (n + byteLen (cutLine s).1 < defaultBufSize) &&
          (if (cutLine s).2.1 = true then shortLinesAux 0 (cutLine s).2.2 else true)) := by
  intro s
  induction s with
  | nil =>
    intro n
    simp [shortLinesAux, cutLine, byteLen]
  | cons c t ih =>
    intro n
    by_cases hc : c = '\n'
    · simp [shortLinesAux, cutLine, hc, byteLen]
    · rw [shortLinesAux, if_neg hc, ih]
      simp [cutLine, hc, byteLen_cons, Nat.add_assoc]

/-- The first cut consumes the line and its line feed. -/
theorem cutLine_length :
    ∀ s : Str, (cutLine s).2.1 = true → (cutLine s).2.2.length < s.length := by
  intro s
  induction s with
  | nil => simp [cutLine]
  | cons c t ih =>
    by_cases hc : c = '\n'
    · simp [cutLine, hc]
    · rcases hcut : cutLine t with ⟨l, f, r⟩
      rw [hcut] at ih
      simp only [cutLine, hc, if_false, hcut, List.length_cons]
      intro h
      have := ih h
      simp only at this
      omega

/-- Without a line feed the first cut returns the whole content. -/
theorem cutLine_not_found :
    ∀ s : Str, (cutLine s).2.1 = false → (cutLine s).1 = s := by
  intro s
  induction s with
  | nil => simp [cutLine]
  | cons c t ih =>
    by_cases hc : c = '\n'
    · simp [cutLine, hc]
    · simp only [cutLine, hc, if_false]
      intro h
      rw [ih h]

/-- On a content with short lines the load loop adds the lines of the content,
one by one, given fuel for every line and the final read. -/
theorem loadLoop_fileLines :
    ∀ (n : Nat) (content : Str) (fuel : Nat) (hc : HostCache),
      content.length ≤ n → n + 1 ≤ fuel → shortLines content = true →
      loadLoop fuel (ReadLine content) hc =
        (fileLines content).foldl (fun c a => (c.Add a).1) hc := by
  intro n
  induction n with
  | zero =>
    intro content fuel hc hlen hfuel _
    have hnil : content = [] := List.length_eq_zero.1 (Nat.le_zero.1 hlen)
    subst hnil
    obtain ⟨k, rfl⟩ : ∃ k, fuel = k + 1 := ⟨fuel - 1, by omega⟩
    simp [ReadLine_nil, loadLoop, fileLines, fileLinesAux]
  | succ n ih =>
    intro content fuel hc hlen hfuel hshort
    obtain ⟨k, rfl⟩ : ∃ k, fuel = k + 1 := ⟨fuel - 1, by omega⟩
    have hfl := fileLinesAux_cutLine content []
    have hsl := shortLinesAux_cutLine content 0
    unfold shortLines at hshort
    rw [hsl] at hshort
    simp only [Bool.and_eq_true, decide_eq_true_eq, Nat.zero_add] at hshort
    obtain ⟨hbytes, hrest⟩ := hshort
    unfold fileLines
    rw [hfl]
    cases hfound : (cutLine content).2.1 with
    | true =>
      rw [hfound] at hrest
      simp only [if_true] at hrest
      have hlt := cutLine_length content hfound
      have hrl : ReadLine content =
          ⟨dropCR (cutLine content).1, false, false, (cutLine content).2.2⟩ := by
        unfold ReadLine
        rcases hcut : cutLine content with ⟨l, f, r⟩
        rw [hcut] at hfound hbytes
        simp only at hfound hbytes
        subst hfound
        have : byteLen l + 1 ≤ defaultBufSize := hbytes
        simp only [this, if_true]
      rw [hrl]
      simp only [loadLoop, and_self, if_true, List.reverse_nil, List.nil_append,
        List.foldl_cons]
      exact ih _ k _ (by omega) (by omega) hrest
    | false =>
      have hwhole := cutLine_not_found content hfound
      rw [hwhole] at hbytes
      simp only [Bool.false_eq_true, if_false, List.reverse_nil, List.nil_append, hwhole]
      have hnb : ¬ defaultBufSize ≤ byteLen content := by omega
      by_cases hempty : content = []
      · subst hempty
        simp [ReadLine_nil, loadLoop]
      · have hrl : ReadLine content = ⟨content, false, false, []⟩ := by
          unfold ReadLine
          rcases hcut : cutLine content with ⟨l, f, r⟩
          rw [hcut] at hfound hwhole
          simp only at hfound hwhole
          subst hfound
          subst hwhole
          simp only [hnb, if_false, hempty]
        rw [hrl, if_neg hempty]
        obtain ⟨j, rfl⟩ : ∃ j, k = j + 1 := by
          have : 0 < content.length := List.length_pos.2 hempty
          exact ⟨k - 1, by omega⟩
        simp [loadLoop, ReadLine_nil]

/-- The lines after a line feed are lines of the whole content. -/
theorem fileLinesAux_after_line_feed :
    ∀ (a r cur : Str) (l : Str), l ∈ fileLinesAux [] r → l ∈ fileLinesAux cur (a ++ '\n' :: r) := by
  intro a
  induction a with
  | nil =>
    intro r cur l hl
    simp only [List.nil_append, fileLinesAux, if_true]
    exact List.mem_cons_of_mem _ hl
  | cons c t ih =>
    intro r cur l hl
    by_cases hc : c = '\n'
    · subst hc
      simp only [List.cons_append, fileLinesAux, if_true]
      exact List.mem_cons_of_mem _ (ih r [] l hl)
    · simp only [List.cons_append, fileLinesAux, hc, if_false]
      exact ih r _ l hl

/-- C15, as the code has it: for every file content whose lines are each
shorter than the 4096 bytes of the reader's buffer, the set built by the load
loop of `NewHostCache` has as members exactly the lines of the file, the empty
ones included: a content with an empty line (two line feeds in a row) gives a
set that has the empty string as a member. -/
theorem loadContent_lines (content : Str) (hshort : shortLines content = true) :
    (∀ a, a ∈ (loadContent content).set ↔ a ∈ fileLines content) ∧
    (∀ before after : Str, content = before ++ '\n' :: '\n' :: after →
      [] ∈ (loadContent content).set) := by
  have h1 : loadContent content =
      (fileLines content).foldl (fun c a => (c.Add a).1) HostCache.empty :=
    loadLoop_fileLines content.length content _ _ (Nat.le_refl _) (Nat.le_refl _) hshort
  have hmem : ∀ a, a ∈ (loadContent content).set ↔ a ∈ fileLines content := by
    intro a
    rw [h1]
    have := mem_foldl_Add (fun x => x) (fileLines content) HostCache.empty a
    simpa [HostCache.empty] using this
  refine ⟨hmem, ?_⟩
  intro before after hc
  rw [hmem, hc]
  unfold fileLines
  apply fileLinesAux_after_line_feed
  simp [fileLinesAux, dropCR]

/-- Witness of C15: a file of two addresses with an empty line between them. -/
theorem loadContent_lines_witness :
    (∀ a, a ∈ (loadContent "10.0.0.1:6346\n\n10.0.0.2:6346\n".toList).set ↔
      a ∈ fileLines "10.0.0.1:6346\n\n10.0.0.2:6346\n".toList) ∧
    (∀ before after : Str,
      "10.0.0.1:6346\n\n10.0.0.2:6346\n".toList = before ++ '\n' :: '\n' :: after →
      [] ∈ (loadContent "10.0.0.1:6346\n\n10.0.0.2:6346\n".toList).set) :=
  loadContent_lines "10.0.0.1:6346\n\n10.0.0.2:6346\n".toList (by decide)

/-- C15 fails on a file with an empty line: the content of two addresses with
an empty line between them loads as three members, one of them the empty
string. -/
theorem loadContent_empty_line_counterexample :
    (loadContent "10.0.0.1:6346\n\n10.0.0.2:6346\n".toList).set =
      ["10.0.0.1:6346".toList, [], "10.0.0.2:6346".toList] ∧
    ([] : Str) ∈ (loadContent "10.0.0.1:6346\n\n10.0.0.2:6346\n".toList).set := by
  refine ⟨by decide, by decide⟩

/-! ### The parser never fails on well-formed lines -/

theorem Contains_colon_of_colon_space (l : Str) (h : Contains l ": ".toList = true) :
    Contains l ":".toList = true := by
  induction l with
  | nil => simp [Contains, String.toList, List.isPrefixOf] at h
  | cons c t ih =>
    simp only [Contains, Bool.or_eq_true] at h ⊢
    rcases h with h | h
    · left
      simp only [String.toList, List.isPrefixOf, Bool.and_eq_true] at h ⊢
      cases t with
      | nil => simp [List.isPrefixOf] at h
      | cons d t => exact ⟨h.1, trivial⟩
    · exact Or.inr (ih h)

/-- One iteration of the loop does not panic on a non-empty line that has
`": "` when it has a colon. -/
theorem step_total (st : ParseState) (l : Str) (hne : l ≠ [])
    (hcolon : Contains l ":".toList = true → Contains l ": ".toList = true) :
    ∃ st1, ParseHeaders.step st l = some st1 := by
  cases l with
  | nil => exact absurd rfl hne
  | cons c t =>
    simp only [ParseHeaders.step]
    by_cases h1 : c = ' ' ∧ st.i_key.length > 0
    · rw [if_pos h1]
      cases st.h_map st.i_key with
      | none => exact ⟨_, rfl⟩
      | some v => exact ⟨_, rfl⟩
    · rw [if_neg h1]
      by_cases h2 : Contains (c :: t) ":".toList = true
      · rw [if_pos h2]
        obtain ⟨k, v, r, hs⟩ := Split_of_Contains (c :: t) ": ".toList (by decide) (hcolon h2)
        rw [hs]
        dsimp only
        cases st.h_map k with
        | none => exact ⟨_, rfl⟩
        | some x => exact ⟨_, rfl⟩
      · rw [if_neg h2]
        exact ⟨_, rfl⟩

theorem loop_total :
    ∀ (lines : List Str) (st : ParseState),
      (∀ l ∈ lines, l ≠ [] ∧ (Contains l ":".toList = true → Contains l ": ".toList = true)) →
      ∃ st1, ParseHeaders.loop lines st = some st1 := by
  intro lines
  induction lines with
  | nil => intro st _; exact ⟨st, rfl⟩
  | cons l rest ih =>
    intro st hl
    obtain ⟨st1, h1⟩ := step_total st l (hl l (List.mem_cons_self _ _)).1
      (hl l (List.mem_cons_self _ _)).2
    obtain ⟨st2, h2⟩ := ih st1 (fun x hx => hl x (List.mem_cons_of_mem _ hx))
    exact ⟨st2, by simp only [ParseHeaders.loop, h1, h2]⟩

/-- The last character of a trimmed text is not white space. -/
theorem TrimSpace_getLast (s : Str) (c : Char) (h : (TrimSpace s).getLast? = some c) :
    IsSpace c = false := by
  unfold TrimSpace at h
  rw [List.getLast?_reverse] at h
  have := List.head?_dropWhile_not IsSpace (List.dropWhile IsSpace s).reverse
  rw [h] at this
  exact this

/-- The first character of a trimmed text is not white space. -/
theorem TrimSpace_head (s : Str) (c : Char) (h : (TrimSpace s).head? = some c) :
    IsSpace c = false := by
  have hpre : TrimSpace s <+: List.dropWhile IsSpace s :=
    List.rdropWhile_prefix IsSpace (List.dropWhile IsSpace s)
  obtain ⟨r, hr⟩ := hpre
  cases ht : TrimSpace s with
  | nil => rw [ht] at h; simp at h
  | cons a t =>
    rw [ht] at h hr
    simp only [List.head?_cons, Option.some.injEq] at h
    subst h
    have := List.head?_dropWhile_not IsSpace s
    rw [← hr] at this
    simpa using this

/-- Splitting at CRLF a text that has no two CRLF in a row, does not end in a
line feed and, when a fragment is being started, neither is empty nor starts
with CRLF, gives non-empty fragments only. -/
theorem splitAux_crlf_ne_nil :
    ∀ s : Str,
      (∀ cur : Str, Contains s ['\r', '\n', '\r', '\n'] = false →
        (cur = [] → s ≠ [] ∧ List.isPrefixOf ['\r', '\n'] s = false) →
        s.getLast? ≠ some '\n' →
        ∀ f ∈ splitAux ['\r', '\n'] s cur 0, f ≠ []) ∧
      (∀ (c : Char) (s1 : Str), s = c :: s1 →
        Contains s1 ['\r', '\n', '\r', '\n'] = false →
        (s1 ≠ [] ∧ List.isPrefixOf ['\r', '\n'] s1 = false) →
        s1.getLast? ≠ some '\n' →
        ∀ f ∈ splitAux ['\r', '\n'] s [] 1, f ≠ []) := by
  intro s
  induction s with
  | nil =>
    constructor
    · intro cur _ hB _ f hf
      simp only [splitAux, List.mem_singleton] at hf
      subst hf
      intro e
      exact (hB (List.reverse_eq_nil_iff.1 e)).1 rfl
    · intro c s1 e
      exact absurd e (by simp)
  | cons c t ih =>
    constructor
    · intro cur hA hB hC f hf
      simp only [Contains, Bool.or_eq_false_iff] at hA
      have hCt : t.getLast? ≠ some '\n' := by
        cases t with
        | nil => simp
        | cons d t => simpa using hC
      unfold splitAux at hf
      by_cases hp : List.isPrefixOf ['\r', '\n'] (c :: t) = true
      · rw [if_pos hp] at hf
        have hcur : cur ≠ [] := by
          intro e
          have := (hB e).2
          rw [hp] at this
          exact Bool.noConfusion this
        rcases List.mem_cons.1 hf with hf | hf
        · subst hf
          simpa using hcur
        · cases t with
          | nil => simp [List.isPrefixOf] at hp
          | cons d t2 =>
            simp only [List.isPrefixOf, Bool.and_eq_true, beq_iff_eq, Bool.and_true] at hp
            obtain ⟨hc, hd⟩ := hp
            have hA2 := hA.2
            simp only [Contains, Bool.or_eq_false_iff] at hA2
            have ht2 : t2 ≠ [] := by
              intro e
              subst e
              apply hC
              simp [← hd]
            have hB2 : List.isPrefixOf ['\r', '\n'] t2 = false := by
              have h1 := hA.1
              simp only [List.isPrefixOf, ← hc, ← hd, beq_self_eq_true, Bool.true_and] at h1
              exact h1
            have hC2 : t2.getLast? ≠ some '\n' := by
              cases t2 with
              | nil => exact absurd rfl ht2
              | cons e t3 => simpa using hCt
            exact (ih.2 d t2 rfl hA2.2 ⟨ht2, hB2⟩ hC2) f hf
      · rw [if_neg hp] at hf
        exact (ih.1 (c :: cur) hA.2 (fun e => absurd e (by simp)) hCt) f hf
    · intro c1 s1 e hA hB hC f hf
      simp only [List.cons.injEq] at e
      obtain ⟨_, e2⟩ := e
      subst e2
      unfold splitAux at hf
      exact (ih.1 [] hA (fun _ => hB) hC) f hf

/-- The lines of a text whose trimmed form is not empty and has no two CRLF in
a row are not empty. -/
theorem headerLines_ne_nil (text : Str) (hne : TrimSpace text ≠ [])
    (hempty : Contains (TrimSpace text) "\r\n\r\n".toList = false) :
    ∀ l ∈ headerLines text, l ≠ [] := by
  have hB : List.isPrefixOf ['\r', '\n'] (TrimSpace text) = false := by
    cases ht : TrimSpace text with
    | nil => rfl
    | cons a t =>
      have ha := TrimSpace_head text a (by rw [ht]; rfl)
      have har : a ≠ '\r' := by
        intro e
        rw [e] at ha
        exact absurd ha (by decide)
      cases t with
      | nil => simp [List.isPrefixOf]
      | cons b t => simp [List.isPrefixOf, Ne.symm har]
  have hC : (TrimSpace text).getLast? ≠ some '\n' := by
    intro e
    exact absurd (TrimSpace_getLast text '\n' e) (by decide)
  exact (splitAux_crlf_ne_nil (TrimSpace text)).1 [] hempty (fun _ => ⟨hne, hB⟩) hC

/-- C20: for every text that is not empty after trimming, has no empty line (no
two CRLF in a row) and has `": "` in every line that has a colon,
`ParseHeaders` returns a map: neither `h[0]` nor `h_frag[1]` is out of range. -/
theorem ParseHeaders_total (text : Str) (hne : TrimSpace text ≠ [])
    (hempty : Contains (TrimSpace text) "\r\n\r\n".toList = false)
    (hcolon : ∀ l ∈ headerLines text,
      Contains l ":".toList = true → Contains l ": ".toList = true) :
    (∀ l ∈ headerLines text, l ≠ []) ∧ ∃ m, ParseHeaders text = some m := by
  have hl := headerLines_ne_nil text hne hempty
  obtain ⟨st1, h1⟩ := loop_total (headerLines text) ⟨fun _ => none, []⟩
    (fun l hx => ⟨hl l hx, hcolon l hx⟩)
  exact ⟨hl, st1.h_map, by simp [ParseHeaders, h1]⟩

/-- Witness of C20: a response with a status line, a header with a colon in its
value and a continuation line. -/
theorem ParseHeaders_total_witness :
    (∀ l ∈ headerLines "GNUTELLA/0.6 200 OK\r\nX-Try: 1.2.3.4:6346\r\n more\r\n\r\n".toList,
      l ≠ []) ∧
    ∃ m, ParseHeaders "GNUTELLA/0.6 200 OK\r\nX-Try: 1.2.3.4:6346\r\n more\r\n\r\n".toList =
      some m :=
  ParseHeaders_total "GNUTELLA/0.6 200 OK\r\nX-Try: 1.2.3.4:6346\r\n more\r\n\r\n".toList
    (by decide) (by decide) (by decide)

/-! ### The status line -/

/-- Header lines and continuation lines leave the entry `Title` as it is, once a
header line has been passed or when the next line is a header line. -/
theorem loop_title (first : Str) :
    ∀ (rest : List Str) (st : ParseState),
      st.h_map "Title".toList = some first → st.i_key ≠ "Title".toList →
      (∀ l ∈ rest, headerLine l = true ∨ contLine l = true) →
      (st.i_key = [] → ∀ l, rest.head? = some l → headerLine l = true) →
      ∃ st1, ParseHeaders.loop rest st = some st1 ∧ st1.h_map "Title".toList = some first := by
  intro rest
  induction rest with
  | nil => intro st h1 _ _ _; exact ⟨st, rfl, h1⟩
  | cons l rest ih =>
    intro st h1 h2 hl hfirst
    have hrest := fun x hx => hl x (List.mem_cons_of_mem l hx)
    cases l with
    | nil =>
      rcases hl [] (List.mem_cons_self _ _) with h | h
      · simp [headerLine, Contains, String.toList, List.isPrefixOf] at h
      · simp [contLine] at h
    | cons c t =>
      by_cases hc : c = ' ' ∧ st.i_key.length > 0
      · have hk : st.i_key ≠ [] := List.length_pos.1 hc.2
        have hstep : ∃ st1, ParseHeaders.step st (c :: t) = some st1 ∧
            st1.h_map "Title".toList = some first ∧ st1.i_key = st.i_key := by
          simp only [ParseHeaders.step]
          rw [if_pos hc]
          cases st.h_map st.i_key with
          | none => exact ⟨st, rfl, h1, rfl⟩
          | some v =>
            exact ⟨_, rfl, (HeaderMap.set_ne _ _ _ _ (Ne.symm h2)).trans h1, rfl⟩
        obtain ⟨st1, hs, ht, hi⟩ := hstep
        obtain ⟨st2, h3, h4⟩ := ih st1 ht (by rw [hi]; exact h2) hrest
          (fun e => absurd (hi ▸ e) hk)
        exact ⟨st2, by simp only [ParseHeaders.loop, hs, h3], h4⟩
      · have hhl : headerLine (c :: t) = true := by
          rcases hl (c :: t) (List.mem_cons_self _ _) with h | h
          · exact h
          · have hsp : c = ' ' := by simpa [contLine] using h
            have hk : st.i_key = [] := by
              by_contra hne
              exact hc ⟨hsp, List.length_pos.2 hne⟩
            exact hfirst hk (c :: t) rfl
        simp only [headerLine, Bool.and_eq_true, Bool.not_eq_true'] at hhl
        obtain ⟨⟨hcs, hnk⟩, hnt⟩ := hhl
        have hcolon := Contains_colon_of_colon_space (c :: t) hcs
        obtain ⟨k, v, r, hsp⟩ := Split_of_Contains (c :: t) ": ".toList (by decide) hcs
        have hpre := Split_cons_cons _ _ _ _ _ hsp
        have hk1 : k ≠ [] := by
          intro e
          rw [e, List.nil_append] at hpre
          rw [List.isPrefixOf_iff_prefix.2 hpre] at hnk
          exact Bool.noConfusion hnk
        have hk2 : k ≠ "Title".toList := by
          intro e
          rw [e] at hpre
          have : ("Title: ".toList).isPrefixOf (c :: t) = true :=
            List.isPrefixOf_iff_prefix.2 hpre
          rw [this] at hnt
          exact Bool.noConfusion hnt
        have hstep : ∃ st1, ParseHeaders.step st (c :: t) = some st1 ∧
            st1.h_map "Title".toList = some first ∧ st1.i_key = k := by
          simp only [ParseHeaders.step]
          rw [if_neg hc, if_pos hcolon, hsp]
          dsimp only
          cases st.h_map k with
          | none => exact ⟨_, rfl, (HeaderMap.set_ne _ _ _ _ (Ne.symm hk2)).trans h1, rfl⟩
          | some x => exact ⟨_, rfl, (HeaderMap.set_ne _ _ _ _ (Ne.symm hk2)).trans h1, rfl⟩
        obtain ⟨st1, hs, ht, hi⟩ := hstep
        obtain ⟨st2, h3, h4⟩ := ih st1 ht (by rw [hi]; exact hk2) hrest
          (fun e => absurd (hi ▸ e) hk1)
        exact ⟨st2, by simp only [ParseHeaders.loop, hs, h3], h4⟩

/-- C19, as the code has it: let the first line of a response text (the trimmed
text split at CRLF) be non-empty and without a colon, and let every later line
be a header line (it contains `": "`, and its key is neither empty nor `Title`)
or a continuation line (it begins with a space), the second line being a
header line.  Then `ParseHeaders` maps `Title` to exactly that first line. -/
theorem ParseHeaders_title (text first : Str) (rest : List Str)
    (hlines : headerLines text = first :: rest)
    (hne : first ≠ []) (hcolon : Contains first ":".toList = false)
    (hrest : ∀ l ∈ rest, headerLine l = true ∨ contLine l = true)
    (hsecond : ∀ l, rest.head? = some l → headerLine l = true) :
    ∃ m, ParseHeaders text = some m ∧ m "Title".toList = some first := by
  have hstep : ParseHeaders.step ⟨fun _ => none, []⟩ first =
      some ⟨HeaderMap.set (fun _ => none) "Title".toList first, []⟩ := by
    cases first with
    | nil => exact absurd rfl hne
    | cons c t =>
      simp only [ParseHeaders.step]
      rw [if_neg (by simp), if_neg (by rw [hcolon]; exact Bool.false_ne_true)]
  have hT : ([] : Str) ≠ "Title".toList := by decide
  obtain ⟨st1, h1, h2⟩ := loop_title first rest
    ⟨HeaderMap.set (fun _ => none) "Title".toList first, []⟩
    (HeaderMap.set_self (fun _ => none) "Title".toList first) hT hrest (fun _ => hsecond)
  refine ⟨st1.h_map, ?_, h2⟩
  simp only [ParseHeaders, hlines, ParseHeaders.loop, hstep, h1, Option.map_some']

/-- Witness of C19: a status line followed by two header lines and a
continuation line. -/
theorem ParseHeaders_title_witness :
    ∃ m, ParseHeaders
        "GNUTELLA/0.6 200 OK\r\nUser-Agent: x\r\nX-Try: 1.2.3.4:6346\r\n 5.6.7.8:6346\r\n\r\n".toList
        = some m ∧
      m "Title".toList = some "GNUTELLA/0.6 200 OK".toList :=
  ParseHeaders_title
    "GNUTELLA/0.6 200 OK\r\nUser-Agent: x\r\nX-Try: 1.2.3.4:6346\r\n 5.6.7.8:6346\r\n\r\n".toList
    "GNUTELLA/0.6 200 OK".toList
    ["User-Agent: x".toList, "X-Try: 1.2.3.4:6346".toList, " 5.6.7.8:6346".toList]
    (by decide) (by decide) (by decide) (by decide) (by decide)

/-- C19 fails when a later line has no colon either: for the status line
`GNUTELLA/0.6 200 OK` followed by `User-Agent: x` and the line `bye`, the key
`Title` maps to `bye`. -/
theorem ParseHeaders_title_counterexample :
    headerLines "GNUTELLA/0.6 200 OK\r\nUser-Agent: x\r\nbye".toList =
      ["GNUTELLA/0.6 200 OK".toList, "User-Agent: x".toList, "bye".toList] ∧
    Contains "GNUTELLA/0.6 200 OK".toList ":".toList = false ∧
    (ParseHeaders "GNUTELLA/0.6 200 OK\r\nUser-Agent: x\r\nbye".toList).map
      (fun m => m "Title".toList) = some (some "bye".toList) := by
  refine ⟨by decide, by decide, by decide⟩

/-! ### Bootstrap stops at the first success -/

/-- Caching the peers of a header keeps the peer link and every member. -/
theorem cacheHeader_frame (h : HeaderMap) (key : Str) (s s1 : Servent) (ρ : RangeOrder)
    (d d1 : Disk) (hc : Servent.cacheHeader h key s ρ d = some (s1, d1)) :
    s1.Peer = s.Peer ∧ ∀ x ∈ s.Hostcache.set, x ∈ s1.Hostcache.set := by
  unfold Servent.cacheHeader at hc
  cases hk : h key with
  | none =>
    rw [hk] at hc
    simp only [Option.some.injEq, Prod.mk.injEq] at hc
    obtain ⟨rfl, _⟩ := hc
    exact ⟨rfl, fun x hx => hx⟩
  | some v =>
    rw [hk] at hc
    simp only [Servent.CachePeers, CachePeers_loop_eq, Option.some.injEq, Prod.mk.injEq] at hc
    obtain ⟨rfl, _⟩ := hc
    exact ⟨rfl, fun x hx => (mem_foldl_Add beforeFirstSpace _ _ x).2 (Or.inl hx)⟩

/-- A handshake keeps the peer link and every member of the cache. -/
theorem Handshake_frame (s : Servent) (conn : Conn) (ρ : RangeOrder) (d : Disk)
    (out : Servent.Outcome) (h : s.Handshake conn ρ d = some out) :
    out.servent.Peer = s.Peer ∧ ∀ x ∈ s.Hostcache.set, x ∈ out.servent.Hostcache.set := by
  unfold Servent.Handshake at h
  rcases hw : conn.Write (Payload.text Servent.connectRequest) with ⟨c1, e1⟩
  rw [hw] at h
  cases e1 with
  | some err =>
    simp only [Option.some.injEq] at h
    subst h
    exact ⟨rfl, fun x hx => hx⟩
  | none =>
    dsimp only at h
    rcases hr : readLoop c1.reads with ⟨buf, left, e⟩
    rw [hr] at h
    dsimp only at h
    by_cases hb : buf.length = 0
    · rw [if_pos hb] at h
      simp only [Option.some.injEq] at h
      subst h
      exact ⟨rfl, fun x hx => hx⟩
    · rw [if_neg hb] at h
      cases hp : ParseHeaders buf with
      | none => rw [hp] at h; exact Option.noConfusion h
      | some hm =>
        rw [hp] at h
        simp only at h
        cases hc1 : Servent.cacheHeader hm "X-Try-Ultrapeers".toList s ρ d with
        | none => rw [hc1] at h; exact Option.noConfusion h
        | some r1 =>
          obtain ⟨s1, d1⟩ := r1
          rw [hc1] at h
          simp only at h
          cases hc2 : Servent.cacheHeader hm "X-Try".toList s1 ρ d1 with
          | none => rw [hc2] at h; exact Option.noConfusion h
          | some r2 =>
            obtain ⟨s2, d2⟩ := r2
            rw [hc2] at h
            simp only at h
            obtain ⟨hp1, hm1⟩ := cacheHeader_frame _ _ _ _ _ _ _ hc1
            obtain ⟨hp2, hm2⟩ := cacheHeader_frame _ _ _ _ _ _ _ hc2
            have hs2 : out.servent = s2 := by
              split at h
              · simp only [Option.some.injEq] at h
                subst h
                rfl
              · split at h
                · simp only [Option.some.injEq] at h
                  subst h
                  rfl
                · simp only [Option.some.injEq] at h
                  subst h
                  rfl
            rw [hs2]
            exact ⟨hp2.trans hp1, fun x hx => hm2 x (hm1 x hx)⟩

theorem filter_ne_filter_not_mem (l : List Str) (b : Str) (rest : List Str) :
    (l.filter (fun a => a ≠ b)).filter (fun x => x ∉ rest) =
      l.filter (fun x => x ∉ b :: rest) := by
  rw [List.filter_filter]
  apply List.filter_congr
  intro x _
  by_cases hx : x = b <;> simp [hx]

/-- The loop of `Bootstrap` on a snapshot whose first addresses all fail and
whose next address dials and handshakes. -/
theorem Bootstrap_loop_first_success (dial : Str → Except GoError Conn) (ρ : RangeOrder)
    (a : Str) (conn : Conn) (post : List Str)
    (hdial : dial a = .ok conn) (hok : handshakeSucceeds ρ conn) :
    ∀ (pre : List Str) (s : Servent) (d : Disk) (dialed : List Str) (closed : List Conn),
      (∀ b ∈ pre, attemptFails dial ρ b) →
      ∃ s1 d1 closed1 s0 d0 o,
        Servent.Bootstrap.loop dial ρ (pre ++ a :: post) s d dialed closed =
          some (s1, d1, dialed ++ pre ++ [a], closed1) ∧
        Servent.Handshake s0 conn ρ d0 = some o ∧ o.err = none ∧ s1.Peer = some o.conn ∧
        (∀ x ∈ s.Hostcache.set, x ∉ pre → x ∈ s1.Hostcache.set) ∧
        ((∀ b ∈ pre ++ [a], ∀ c, dial b = .ok c → handshakeQuiet ρ c) →
          s1.Hostcache.set = s.Hostcache.set.filter (fun x => x ∉ pre)) := by
  intro pre
  induction pre with
  | nil =>
    intro s d dialed closed _
    obtain ⟨o, ho, herr⟩ := hok s d
    obtain ⟨hpeer, hmem⟩ := Handshake_frame s conn ρ d o ho
    obtain ⟨os, oc, od, oe⟩ := o
    simp only at herr hmem
    subst herr
    refine ⟨{ os with Peer := some oc }, od, closed, s, d, ⟨os, oc, od, none⟩, ?_, ho, rfl, rfl,
      fun x hx _ => hmem x hx, ?_⟩
    · simp only [List.nil_append, Servent.Bootstrap.loop, hdial, ho, List.append_nil]
    · intro hq
      have := hq a (by simp) conn hdial s d _ ho
      simp only at this
      simp [this]
  | cons b pre ih =>
    intro s d dialed closed hfail
    have hrest := fun x hx => hfail x (List.mem_cons_of_mem b hx)
    rcases hfail b (List.mem_cons_self _ _) with ⟨e, he⟩ | ⟨c, hc, hf⟩
    · obtain ⟨s1, d1, closed1, s0, d0, o, h1, h2, h3, h4, h5, h6⟩ :=
        ih { s with Hostcache := (s.Hostcache.Delete b ρ d).1 } (s.Hostcache.Delete b ρ d).2
          (dialed ++ [b]) closed hrest
      refine ⟨s1, d1, closed1, s0, d0, o, ?_, h2, h3, h4, ?_, ?_⟩
      · show Servent.Bootstrap.loop dial ρ (b :: (pre ++ a :: post)) s d dialed closed = _
        simp only [Servent.Bootstrap.loop, he, h1]
        simp
      · intro x hx hnot
        apply h5 x
        · simp only [HostCache.Delete, List.mem_filter, decide_eq_true_eq]
          exact ⟨hx, fun e => hnot (by simp [e])⟩
        · exact fun hm => hnot (List.mem_cons_of_mem _ hm)
      · intro hq
        rw [h6 (fun x hx => hq x (by
          rcases List.mem_append.1 hx with h | h
          · exact List.mem_append_left _ (List.mem_cons_of_mem _ h)
          · exact List.mem_append_right _ h))]
        exact filter_ne_filter_not_mem _ _ _
    · obtain ⟨o1, ho1, herr1⟩ := hf s d
      obtain ⟨_, hmem1⟩ := Handshake_frame s c ρ d o1 ho1
      obtain ⟨os, oc, od, oe⟩ := o1
      simp only at herr1 hmem1
      obtain ⟨err, rfl⟩ : ∃ err, oe = some err := by
        cases oe with
        | none => exact absurd rfl herr1
        | some err => exact ⟨err, rfl⟩
      obtain ⟨s1, d1, closed1, s0, d0, o, h1, h2, h3, h4, h5, h6⟩ :=
        ih { os with Hostcache := (os.Hostcache.Delete b ρ od).1 } (os.Hostcache.Delete b ρ od).2
          (dialed ++ [b]) (closed ++ [oc.Close]) hrest
      refine ⟨s1, d1, closed1, s0, d0, o, ?_, h2, h3, h4, ?_, ?_⟩
      · show Servent.Bootstrap.loop dial ρ (b :: (pre ++ a :: post)) s d dialed closed = _
        simp only [Servent.Bootstrap.loop, hc, ho1, h1]
        simp
      · intro x hx hnot
        apply h5 x
        · simp only [HostCache.Delete, List.mem_filter, decide_eq_true_eq]
          exact ⟨hmem1 x hx, fun e => hnot (by simp [e])⟩
        · exact fun hm => hnot (List.mem_cons_of_mem _ hm)
      · intro hq
        have hquiet := hq b (by simp) c hc s d _ ho1
        simp only at hquiet
        rw [h6 (fun x hx => hq x (by
          rcases List.mem_append.1 hx with h | h
          · exact List.mem_append_left _ (List.mem_cons_of_mem _ h)
          · exact List.mem_append_right _ h))]
        simp only [HostCache.Delete, hquiet]
        exact filter_ne_filter_not_mem _ _ _

/-- C11, as the code has it: let the snapshot `Items()` of a cache (its keys
distinct, as in a map) be the addresses `pre`, then `a`, then `post`, where the attempt on every address of
`pre` fails (its dial fails or its handshake returns an error) and `a` dials
and handshakes successfully.  Then `Bootstrap` returns nil holding the
connection dialed for `a` as its handshake left it; the addresses dialed are
those of `pre` and then `a`, so no address of `post` was dialed; `a` and every
address of `post` are still members; and when no handshake on the way changed
the cache (no response advertised peers), the members at the end are exactly
`a` and the addresses of `post`: exactly the addresses of `pre` are gone. -/
theorem Servent.Bootstrap_first_success (s : Servent) (dial : Str → Except GoError Conn)
    (ρ : RangeOrder) (d : Disk) (pre post : List Str) (a : Str) (conn : Conn)
    (hρ : ρ.Valid) (hn : s.Hostcache.set.Nodup)
    (hitems : s.Hostcache.Items ρ = pre ++ a :: post)
    (hpre : ∀ b ∈ pre, attemptFails dial ρ b)
    (hdial : dial a = .ok conn) (hok : handshakeSucceeds ρ conn) :
    ∃ out, s.Bootstrap dial ρ d = some out ∧ out.err = none ∧
      (∃ s0 d0 o, Servent.Handshake s0 conn ρ d0 = some o ∧ o.err = none ∧
        out.servent.Peer = some o.conn) ∧
      out.dialed = pre ++ [a] ∧
      (∀ x ∈ post, x ∉ out.dialed) ∧
      (∀ x ∈ a :: post, x ∈ out.servent.Hostcache.set) ∧
      ((∀ b ∈ pre ++ [a], ∀ c, dial b = .ok c → handshakeQuiet ρ c) →
        ∀ x, x ∈ out.servent.Hostcache.set ↔ x ∈ a :: post) := by
  have hp : (pre ++ a :: post).Perm s.Hostcache.set := by
    rw [← hitems]
    exact hρ _
  have hnd : (pre ++ a :: post).Nodup := hp.nodup_iff.2 hn
  have hdisj : ∀ x, x ∈ a :: post → x ∉ pre := by
    intro x hx hxp
    exact (List.nodup_append.1 hnd).2.2 hxp hx
  obtain ⟨s1, d1, closed1, s0, d0, o, h1, h2, h3, h4, h5, h6⟩ :=
    Bootstrap_loop_first_success dial ρ a conn post hdial hok pre s d [] [] hpre
  refine ⟨⟨s1, d1, [] ++ pre ++ [a], closed1, none⟩, ?_, rfl, ⟨s0, d0, o, h2, h3, h4⟩, by simp,
    ?_, ?_, ?_⟩
  · unfold Servent.Bootstrap
    rw [hitems, h1]
    simp only [h4]
  · intro x hx hmem
    simp only [List.nil_append, List.mem_append, List.mem_singleton] at hmem
    rcases hmem with hm | hm
    · exact hdisj x (List.mem_cons_of_mem _ hx) hm
    · subst hm
      have := (List.nodup_append.1 hnd).2.1
      exact (List.nodup_cons.1 this).1 hx
  · intro x hx
    exact h5 x (hp.mem_iff.1 (List.mem_append_right _ hx)) (hdisj x hx)
  · intro hq x
    show x ∈ s1.Hostcache.set ↔ _
    rw [h6 hq, List.mem_filter, ← hp.mem_iff]
    simp only [List.mem_append, decide_eq_true_eq]
    constructor
    · rintro ⟨h | h, hnot⟩
      · exact absurd h hnot
      · exact h
    · intro h
      exact ⟨Or.inr h, hdisj x h⟩

/-- A peer that answers `GNUTELLA/0.6 200 OK` and nothing else handshakes
successfully, whatever the cache and the file system are. -/
theorem handshake_plain_ok (ρ : RangeOrder) :
    handshakeSucceeds ρ
      ⟨"10.0.0.2:6346".toList, [("GNUTELLA/0.6 200 OK\r\n\r\n".toList, none)], [], [], false⟩ := by
  intro s d
  obtain ⟨s2, d2, hs⟩ := Servent.Handshake_parsed s
    ⟨"10.0.0.2:6346".toList, [("GNUTELLA/0.6 200 OK\r\n\r\n".toList, none)], [], [], false⟩ ρ d
    (HeaderMap.set (fun _ => none) "Title".toList "GNUTELLA/0.6 200 OK".toList)
    (by decide) (by decide) rfl
  rw [if_neg (by decide)] at hs
  exact ⟨_, hs, rfl⟩

/-- Witness of C11: three addresses; the first cannot be dialed, the second
answers `GNUTELLA/0.6 200 OK`. -/
theorem Servent.Bootstrap_first_success_witness :
    ∃ out, (⟨[], PORT, ⟨["10.0.0.1:6346".toList, "10.0.0.2:6346".toList,
          "10.0.0.3:6346".toList]⟩, none⟩ : Servent).Bootstrap
        (fun b => if b = "10.0.0.2:6346".toList then
            .ok ⟨"10.0.0.2:6346".toList, [("GNUTELLA/0.6 200 OK\r\n\r\n".toList, none)], [], [],
              false⟩
          else .error ⟨"*net.OpError".toList, "i/o timeout".toList⟩)
        id ⟨some [], none, none⟩ = some out ∧
      out.err = none ∧
      out.dialed = ["10.0.0.1:6346".toList] ++ ["10.0.0.2:6346".toList] ∧
      (∀ x ∈ ["10.0.0.3:6346".toList], x ∉ out.dialed) ∧
      (∀ x ∈ ["10.0.0.2:6346".toList, "10.0.0.3:6346".toList], x ∈ out.servent.Hostcache.set) :=
  match Servent.Bootstrap_first_success
      ⟨[], PORT, ⟨["10.0.0.1:6346".toList, "10.0.0.2:6346".toList, "10.0.0.3:6346".toList]⟩,
        none⟩
      (fun b => if b = "10.0.0.2:6346".toList then
          .ok ⟨"10.0.0.2:6346".toList, [("GNUTELLA/0.6 200 OK\r\n\r\n".toList, none)], [], [],
            false⟩
        else .error ⟨"*net.OpError".toList, "i/o timeout".toList⟩)
      id ⟨some [], none, none⟩ ["10.0.0.1:6346".toList] ["10.0.0.3:6346".toList]
      "10.0.0.2:6346".toList
      ⟨"10.0.0.2:6346".toList, [("GNUTELLA/0.6 200 OK\r\n\r\n".toList, none)], [], [], false⟩
      (fun l => List.Perm.refl l) (by decide) rfl
      (by
        intro b hb
        simp only [List.mem_singleton] at hb
        subst hb
        exact Or.inl ⟨_, rfl⟩)
      rfl (handshake_plain_ok id) with
  | ⟨out, h1, h2, _, h4, h5, h6, _⟩ => ⟨out, h1, h2, h4, h5, h6⟩

/-- C11 fails on the final membership of an address iterated before the
successful one: `10.0.0.1:6346` cannot be dialed and is deleted, then the peer
at `10.0.0.2:6346` accepts and advertises `10.0.0.1:6346` under `X-Try`;
`Bootstrap` returns nil and `10.0.0.1:6346` is a member of the cache again. -/
theorem Servent.Bootstrap_first_success_counterexample :
    ((⟨[], PORT, ⟨["10.0.0.1:6346".toList, "10.0.0.2:6346".toList]⟩, none⟩ : Servent).Bootstrap
        (fun b => if b = "10.0.0.2:6346".toList then
            .ok ⟨"10.0.0.2:6346".toList,
              [("GNUTELLA/0.6 200 OK\r\nX-Try: 10.0.0.1:6346\r\n\r\n".toList, none)], [], [],
              false⟩
          else .error ⟨"*net.OpError".toList, "i/o timeout".toList⟩)
        id ⟨some [], none, none⟩).map
      (fun out => (out.err, out.dialed, out.servent.Hostcache.set)) =
    some (none, ["10.0.0.1:6346".toList, "10.0.0.2:6346".toList],
      ["10.0.0.2:6346".toList, "10.0.0.1:6346".toList]) := by
  decide

/-! ### The file that `Save` writes, line by line -/

theorem writeItems_eq_flatten (items : List Str) :
    HostCache.writeItems items = (items.map (fun b => b ++ ['\n'])).flatten := by
  induction items with
  | nil => rfl
  | cons a rest ih => simp [HostCache.writeItems, ih]

theorem fileLinesAux_line (a r : Str) (h : '\n' ∉ a) :
    fileLinesAux [] (a ++ '\n' :: r) = dropCR a :: fileLinesAux [] r := by
  rw [fileLinesAux_cutLine, cutLine_line a r h]
  simp

/-- The lines of the text made of clean items, each followed by a line feed,
are the items. -/
theorem fileLines_flatten (items : List Str) (hs : ∀ b ∈ items, lineClean b) :
    fileLines ((items.map (fun b => b ++ ['\n'])).flatten) = items := by
  unfold fileLines
  induction items with
  | nil => simp [fileLinesAux]
  | cons a rest ih =>
    have ha := hs a (List.mem_cons_self _ _)
    have hr : ∀ b ∈ rest, lineClean b := fun b hb => hs b (List.mem_cons_of_mem _ hb)
    have hj : ((a :: rest).map (fun b => b ++ ['\n'])).flatten =
        a ++ '\n' :: (rest.map (fun b => b ++ ['\n'])).flatten := by
      simp
    rw [hj, fileLinesAux_line a _ ha.1, dropCR_of_getLast a ha.2, ih hr]

/-- A file that exists and cannot be opened for writing keeps its content. -/
theorem Save_file_kept (hc : HostCache) (ρ : RangeOrder) (d : Disk) (c : Str)
    (hf : d.file = some c) (hopen : d.openErr ≠ none) : (hc.Save ρ d).file = some c := by
  unfold HostCache.Save CreateIfNotExist
  cases ho : d.openErr with
  | none => exact absurd ho hopen
  | some e => simp [hf, ho]

/-- What `Save` leaves in a file it can create and open: the members in some
order, each followed by one line feed; the lines of that file are the members
when every member is clean. -/
theorem Save_lines (hc : HostCache) (ρ : RangeOrder) (d : Disk) (hρ : ρ.Valid)
    (hcreate : d.file = none → d.createErr = none) (hopen : d.openErr = none) :
    ∃ items content, items.Perm hc.set ∧ (hc.Save ρ d).file = some content ∧
      content = (items.map (fun b => b ++ ['\n'])).flatten ∧
      ((∀ b ∈ hc.set, lineClean b) → fileLines content = items) := by
  have hp : (hc.Items ρ).Perm hc.set := hρ _
  refine ⟨hc.Items ρ, _, hp,
    (Save_file hc ρ d hcreate hopen).trans (congrArg some (writeItems_eq_flatten _)), rfl, ?_⟩
  intro hclean
  exact fileLines_flatten _ (fun b hb => hclean b (hp.mem_iff.1 hb))

/-- C4, as the code has it: after `Delete(a)` the set in memory is the set
before without `a` (every other member is kept, and nothing changes when `a`
was absent).  On a file system that lets the file be created and opened for
writing, the call replaces the content of the file by the remaining members
in some order, each followed by one line feed; when in addition no remaining
member has a line feed inside or a carriage return at its end, the lines of
the file are exactly the remaining members, one per line, and `a` is not a
line of it.  A file that exists and cannot be opened keeps its content. -/
theorem HostCache.Delete_spec (hc : HostCache) (a : Str) (ρ : RangeOrder) (d : Disk)
    (hρ : ρ.Valid) :
    (∀ b, b ∈ (hc.Delete a ρ d).1.set ↔ b ∈ hc.set ∧ b ≠ a) ∧
    (a ∉ hc.set → (hc.Delete a ρ d).1 = hc) ∧
    ((d.file = none → d.createErr = none) → d.openErr = none →
      ∃ items content, items.Perm (hc.Delete a ρ d).1.set ∧
        (hc.Delete a ρ d).2.file = some content ∧
        content = (items.map (fun b => b ++ ['\n'])).flatten ∧
        ((∀ b ∈ hc.set, b ≠ a → lineClean b) →
          fileLines content = items ∧ a ∉ fileLines content ∧
          (∀ b, b ∈ fileLines content ↔ b ∈ hc.set ∧ b ≠ a) ∧
          (hc.set.Nodup → (fileLines content).Nodup))) ∧
    (∀ c, d.file = some c → d.openErr ≠ none → (hc.Delete a ρ d).2.file = some c) := by
  have hmem : ∀ b, b ∈ (hc.Delete a ρ d).1.set ↔ b ∈ hc.set ∧ b ≠ a := by
    intro b
    simp [HostCache.Delete, List.mem_filter]
  refine ⟨hmem, ?_, ?_, ?_⟩
  · intro ha
    have : hc.set.filter (fun x => decide (x ≠ a)) = hc.set := by
      rw [List.filter_eq_self]
      intro x hx
      have : x ≠ a := fun e => ha (e ▸ hx)
      simpa using this
    show (⟨hc.set.filter (fun x => decide (x ≠ a))⟩ : HostCache) = hc
    rw [this]
  · intro hcreate hopen
    obtain ⟨items, content, hp, hfile, hcontent, hlines⟩ :=
      Save_lines (hc.Delete a ρ d).1 ρ d hρ hcreate hopen
    have hmi : ∀ b, b ∈ items ↔ b ∈ hc.set ∧ b ≠ a := by
      intro b
      rw [hp.mem_iff]
      exact hmem b
    refine ⟨items, content, hp, hfile, hcontent, ?_⟩
    intro hclean
    have hl : fileLines content = items :=
      hlines (fun b hb => hclean b ((hmem b).1 hb).1 ((hmem b).1 hb).2)
    rw [hl]
    refine ⟨rfl, fun h => ((hmi a).1 h).2 rfl, hmi, ?_⟩
    intro hn
    exact hp.nodup_iff.2 (hn.filter _)
  · intro c hf hopen
    exact Save_file_kept _ ρ d c hf hopen

/-- Witness of C4: `b:2` deleted from the set of `a:1`, `b:2`, `c:3`, the file
holding `b:2` before. -/
theorem HostCache.Delete_spec_witness :
    RangeOrder.Valid id ∧
    ((⟨["a:1".toList, "b:2".toList, "c:3".toList]⟩ : HostCache).Delete "b:2".toList id
        ⟨some "b:2\n".toList, none, none⟩).1.set = ["a:1".toList, "c:3".toList] ∧
    ∃ items content,
      items.Perm ((⟨["a:1".toList, "b:2".toList, "c:3".toList]⟩ : HostCache).Delete "b:2".toList id
        ⟨some "b:2\n".toList, none, none⟩).1.set ∧
      ((⟨["a:1".toList, "b:2".toList, "c:3".toList]⟩ : HostCache).Delete "b:2".toList id
        ⟨some "b:2\n".toList, none, none⟩).2.file = some content ∧
      content = (items.map (fun b => b ++ ['\n'])).flatten ∧
      fileLines content = items ∧ "b:2".toList ∉ fileLines content ∧
      (∀ b, b ∈ fileLines content ↔
        b ∈ ["a:1".toList, "b:2".toList, "c:3".toList] ∧ b ≠ "b:2".toList) ∧
      ((["a:1".toList, "b:2".toList, "c:3".toList] : List Str).Nodup →
        (fileLines content).Nodup) :=
  ⟨fun l => List.Perm.refl l, by decide,
    match (HostCache.Delete_spec ⟨["a:1".toList, "b:2".toList, "c:3".toList]⟩ "b:2".toList id
      ⟨some "b:2\n".toList, none, none⟩ (fun l => List.Perm.refl l)).2.2.1
      (fun h => by cases h) rfl with
    | ⟨items, content, h1, h2, h3, h4⟩ =>
      ⟨items, content, h1, h2, h3, h4 (by
        intro b hb _
        simp only [List.mem_cons, List.mem_singleton, List.not_mem_nil, or_false] at hb
        rcases hb with rfl | rfl | rfl <;> exact ⟨by decide, by decide⟩)⟩⟩

/-- C4 fails for a member with a line feed inside, and on a file that cannot
be opened.  From the set of `x\na:1` and `a:1` the call `Delete(a:1)` leaves
`x\na:1` in memory and writes the file `x\na:1\n`, whose lines are `x` and
`a:1`: the deleted address is a line of the file and the remaining member is
not.  And when the file holding `a:1` cannot be opened for writing, the file
still holds `a:1` after the call. -/
theorem HostCache.Delete_spec_counterexample :
    (⟨["x\na:1".toList, "a:1".toList]⟩ : HostCache).Delete "a:1".toList id
        ⟨some "x\na:1\na:1\n".toList, none, none⟩ =
      (⟨["x\na:1".toList]⟩, ⟨some "x\na:1\n".toList, none, none⟩) ∧
    fileLines "x\na:1\n".toList = ["x".toList, "a:1".toList] ∧
    "a:1".toList ∈ fileLines "x\na:1\n".toList ∧
    "x\na:1".toList ∉ fileLines "x\na:1\n".toList ∧
    ((⟨["a:1".toList]⟩ : HostCache).Delete "a:1".toList id
        ⟨some "a:1\n".toList, none,
          some ⟨"*os.PathError".toList, "permission denied".toList⟩⟩) =
      (⟨[]⟩, ⟨some "a:1\n".toList, none,
          some ⟨"*os.PathError".toList, "permission denied".toList⟩⟩) := by
  refine ⟨by decide, by decide, by decide, by decide, by decide⟩

/-- C16, as the code has it: after `CachePeers(v)` the cache holds exactly its
former members together with, for each entry of `v` split at commas, the part
of the entry before its first space (the whole entry when it has no space),
and no member is removed.  On a file system that lets the file be created and
opened for writing, the call replaces the content of the file by the members
of this set in some order, each followed by one line feed; when in addition no
member has a line feed inside or a carriage return at its end, the lines of
the file are exactly the members of this set.  A file that exists and cannot
be opened keeps its content. -/
theorem Servent.CachePeers_spec (s : Servent) (v : Str) (ρ : RangeOrder) (d : Disk)
    (hρ : ρ.Valid) :
    ∃ s1 d1, s.CachePeers v ρ d = some (s1, d1) ∧
      (∀ b, b ∈ s1.Hostcache.set ↔
        b ∈ s.Hostcache.set ∨ b ∈ (Split v ",".toList).map beforeFirstSpace) ∧
      (∀ b ∈ s.Hostcache.set, b ∈ s1.Hostcache.set) ∧
      ((d.file = none → d.createErr = none) → d.openErr = none →
        ∃ items content, items.Perm s1.Hostcache.set ∧ d1.file = some content ∧
          content = (items.map (fun b => b ++ ['\n'])).flatten ∧
          ((∀ b, b ∈ s.Hostcache.set ∨ b ∈ (Split v ",".toList).map beforeFirstSpace →
              lineClean b) →
            fileLines content = items ∧
            (∀ b, b ∈ fileLines content ↔
              b ∈ s.Hostcache.set ∨ b ∈ (Split v ",".toList).map beforeFirstSpace))) ∧
      (∀ c, d.file = some c → d.openErr ≠ none → d1.file = some c) := by
  have h1 := CachePeers_loop_eq (Split v ",".toList) s.Hostcache
  have hmem := mem_foldl_Add beforeFirstSpace (Split v ",".toList) s.Hostcache
  refine ⟨{ s with Hostcache :=
      (Split v ",".toList).foldl (fun c e => (c.Add (beforeFirstSpace e)).1) s.Hostcache },
    ((Split v ",".toList).foldl (fun c e => (c.Add (beforeFirstSpace e)).1) s.Hostcache).Save ρ d,
    by simp only [Servent.CachePeers, h1], hmem, ?_, ?_, ?_⟩
  · intro b hb
    exact (hmem b).2 (Or.inl hb)
  · intro hcreate hopen
    obtain ⟨items, content, hp, hfile, hcontent, hlines⟩ :=
      Save_lines ((Split v ",".toList).foldl (fun c e => (c.Add (beforeFirstSpace e)).1)
        s.Hostcache) ρ d hρ hcreate hopen
    refine ⟨items, content, hp, hfile, hcontent, ?_⟩
    intro hclean
    have hl : fileLines content = items := hlines (fun b hb => hclean b ((hmem b).1 hb))
    rw [hl]
    exact ⟨rfl, fun b => (hp.mem_iff).trans (hmem b)⟩
  · intro c hf hopen
    exact Save_file_kept _ ρ d c hf hopen

/-- Witness of C16: a peer list of two entries, the second with a trailing
token, merged into a cache of one address. -/
theorem Servent.CachePeers_spec_witness :
    RangeOrder.Valid id ∧
    ∃ s1 d1, (⟨[], PORT, ⟨["10.0.0.1:6346".toList]⟩, none⟩ : Servent).CachePeers
        "10.0.0.2:6346,10.0.0.3:6346 2013-01-01".toList id ⟨some [], none, none⟩ = some (s1, d1) ∧
      (∀ b, b ∈ s1.Hostcache.set ↔
        b ∈ ["10.0.0.1:6346".toList] ∨
          b ∈ (Split "10.0.0.2:6346,10.0.0.3:6346 2013-01-01".toList ",".toList).map
            beforeFirstSpace) ∧
      ∃ items content, items.Perm s1.Hostcache.set ∧ d1.file = some content ∧
        content = (items.map (fun b => b ++ ['\n'])).flatten ∧
        fileLines content = items :=
  ⟨fun l => List.Perm.refl l,
    match Servent.CachePeers_spec ⟨[], PORT, ⟨["10.0.0.1:6346".toList]⟩, none⟩
        "10.0.0.2:6346,10.0.0.3:6346 2013-01-01".toList id ⟨some [], none, none⟩
        (fun l => List.Perm.refl l) with
    | ⟨s1, d1, h1, h2, _, h4, _⟩ =>
      match h4 (fun h => Option.noConfusion h) rfl with
      | ⟨items, content, k1, k2, k3, k4⟩ =>
        ⟨s1, d1, h1, h2, items, content, k1, k2, k3,
          (k4 (by
            intro b hb
            have hb2 : b = "10.0.0.1:6346".toList ∨ b = "10.0.0.2:6346".toList ∨
                b = "10.0.0.3:6346".toList := by
              have e : (Split "10.0.0.2:6346,10.0.0.3:6346 2013-01-01".toList ",".toList).map
                  beforeFirstSpace = ["10.0.0.2:6346".toList, "10.0.0.3:6346".toList] := by
                decide
              rw [e] at hb
              simpa using hb
            rcases hb2 with rfl | rfl | rfl <;> exact ⟨by decide, by decide⟩)).1⟩⟩

/-- C16 fails for an entry with a line feed inside, and on a file that cannot
be opened.  With the value `x\ny` the cache gains the member `x\ny` and the
file written is `x\ny\n`, whose lines are `x` and `y`: the set in the file is
not the set in memory.  And when the file cannot be opened for writing, the
cache gains `10.0.0.2:6346` while the file still holds `10.0.0.1:6346` only. -/
theorem Servent.CachePeers_spec_counterexample :
    ((⟨[], PORT, HostCache.empty, none⟩ : Servent).CachePeers "x\ny".toList id
        ⟨some [], none, none⟩).map (fun r => (r.1.Hostcache.set, r.2.file)) =
      some (["x\ny".toList], some "x\ny\n".toList) ∧
    fileLines "x\ny\n".toList = ["x".toList, "y".toList] ∧
    "x\ny".toList ∉ fileLines "x\ny\n".toList ∧
    ((⟨[], PORT, ⟨["10.0.0.1:6346".toList]⟩, none⟩ : Servent).CachePeers "10.0.0.2:6346".toList id
        ⟨some "10.0.0.1:6346\n".toList, none,
          some ⟨"*os.PathError".toList, "permission denied".toList⟩⟩).map
        (fun r => (r.1.Hostcache.set, r.2.file)) =
      some (["10.0.0.1:6346".toList, "10.0.0.2:6346".toList],
        some "10.0.0.1:6346\n".toList) := by
  refine ⟨by decide, by decide, by decide, by decide⟩

end GoMesh
